import Mathlib

/-!
Verification development for the Student-Records repository.

The definitions below are a shallow embedding of the core of the repository:
the SQL-like query engine (`src/query_engine.py`), the linked-list record
store and bounded history stack (`src/data_structures.py`), and the student
manager (`src/core/student_manager.py`).  Python strings are modelled as
`String`/`List Char`, Python numbers as `Rat` (exact arithmetic in place of
IEEE floats; no verified statement depends on float rounding), Python dicts
holding student records as a `Student` structure, and raised exceptions as
`Except String`.
-/

deriving instance DecidableEq for Except

namespace StudentRecords

/-! ### String helpers modelling the Python string primitives used by the code -/

/-- Python `t in s` (substring containment) on character lists. -/
def occursCL (t : List Char) : List Char → Bool
  | [] => t.isPrefixOf []
  | c :: s => t.isPrefixOf (c :: s) || occursCL t s

/-- Python `t in s` for strings. -/
def occursIn (t s : String) : Bool := occursCL t.data s.data

/-- Python `s.split(sep, 1)`: split at the first occurrence of `sep`
(which is non-empty at every call site); `none` when `sep` does not occur. -/
def splitFirst (sep : List Char) : List Char → Option (List Char × List Char)
  | [] => if sep.isPrefixOf ([] : List Char) then some ([], []) else none
  | c :: s =>
    if sep.isPrefixOf (c :: s) then some ([], (c :: s).drop sep.length)
    else (splitFirst sep s).map (fun p => (c :: p.1, p.2))

/-- Splitter loop for `splitOnCL`: cut at the first occurrence of the
separator and recurse on the remainder.  The fuel argument (always at
least the remaining length, which shrinks by one or more per step) only
provides structural termination; when it is 0 the remainder is empty and
both branches agree. -/
def splitOnGo (c0 : Char) (sep : List Char) : Nat → List Char → List (List Char)
  | 0, s => [s]
  | fuel + 1, s =>
    match splitFirst (c0 :: sep) s with
    | none => [s]
    | some (l, r) => l :: splitOnGo c0 sep fuel r

/-- Python `s.split(sep)` for a non-empty separator `c0 :: sep`:
leftmost, non-overlapping occurrences. -/
def splitOnCL (c0 : Char) (sep : List Char) (s : List Char) : List (List Char) :=
  splitOnGo c0 sep s.length s

/-- Python `s.split(sep)` on strings (the call sites all pass a non-empty
separator; an empty separator returns `[s]`, a case Python instead rejects). -/
def pySplitOn (sep s : String) : List String :=
  match sep.data with
  | [] => [s]
  | c0 :: rest => (splitOnCL c0 rest s.data).map String.mk

/-- Python `str.upper()` (the queries exercised are ASCII, where
`Char.toUpper` agrees with Python). -/
def pyUpper (s : String) : String := String.mk (s.data.map Char.toUpper)

/-- Python `str.lower()`. -/
def pyLower (s : String) : String := String.mk (s.data.map Char.toLower)

/-- Strip characters satisfying `p` from both ends of a character list. -/
def stripP (p : Char → Bool) (s : List Char) : List Char :=
  ((s.dropWhile p).reverse.dropWhile p).reverse

/-- Python `str.strip()` (whitespace). -/
def pyStrip (s : String) : String := String.mk (stripP Char.isWhitespace s.data)

/-- Python `str.strip("'\"")`: strip single and double quotes from both ends. -/
def stripQuotes (s : String) : String :=
  String.mk (stripP (fun c => c.toNat = 39 || c.toNat = 34) s.data)

mutual
/-- `re.sub(r'\s+', ' ', s)`: collapse every run of whitespace to one space. -/
def collapseWs : List Char → List Char
  | [] => []
  | c :: s => if c.isWhitespace then ' ' :: skipWs s else c :: collapseWs s

/-- Helper for `collapseWs`: drop the rest of a whitespace run. -/
def skipWs : List Char → List Char
  | [] => []
  | c :: s => if c.isWhitespace then skipWs s else c :: collapseWs s
end

/-- Python `s.startswith(t)`. -/
def pyStartsWith (s t : String) : Bool := t.data.isPrefixOf s.data

/-- Value of a digit string, as computed by Python `int` on a `\d+` match. -/
def digitsToNat (l : List Char) : Nat :=
  l.foldl (fun n c => 10 * n + (c.toNat - 48)) 0

/-- Python `float(s)` on simple decimal literals (optional sign, integer part,
optional fractional part).  Exotic accepted forms (exponents, `inf`, `nan`)
are not modelled; no verified statement exercises them. -/
def parseFloatQ (s0 : String) : Option Rat :=
  let s := stripP Char.isWhitespace s0.data
  let signAndRest : Rat × List Char :=
    match s with
    | '-' :: r => (-1, r)
    | '+' :: r => (1, r)
    | r => (1, r)
  let sgn := signAndRest.1
  let s1 := signAndRest.2
  let intPart := s1.takeWhile Char.isDigit
  let rest := s1.dropWhile Char.isDigit
  match rest with
  | [] => if intPart.isEmpty then none else some (sgn * (digitsToNat intPart : Rat))
  | '.' :: frac =>
    let fracD := frac.takeWhile Char.isDigit
    let rest2 := frac.dropWhile Char.isDigit
    if rest2.isEmpty && (!intPart.isEmpty || !fracD.isEmpty) then
      some (sgn * ((digitsToNat intPart : Rat) + (digitsToNat fracD : Rat) / (10 ^ fracD.length)))
    else none
  | _ => none

/-! ### Data model

A Python student record is a dict with exactly the keys
`roll_no`, `name`, `email`, `courses`, `grades`. -/

/-- One student record (`student_data` dict in the source). -/
structure Student where
  roll_no : String
  name : String
  email : String
  courses : List String
  grades : List Rat
deriving DecidableEq, Repr

/-- A Python value returned by `QueryEngine._get_field_value`:
a string, a number, or `None`. -/
inductive Value
  | s (v : String)
  | n (q : Rat)
  | vnone
deriving DecidableEq, Repr

/-- Python `str(v)` for the values above.  Strings map to themselves;
the numeric rendering is a simplified stand-in for Python float formatting
(no verified statement depends on the text of a rendered number). -/
def pyStr : Value → String
  | .s v => v
  | .n q => if q.den = 1 then toString q.num else toString q
  | .vnone => "None"

/-- Python `float(v)` applied to a field value: numbers pass through,
strings are parsed, `None` raises (modelled as `none`). -/
def floatOf : Value → Option Rat
  | .s v => parseFloatQ v
  | .n q => some q
  | .vnone => none

/-- Python `', '.join(l)`. -/
def joinComma : List String → String
  | [] => ""
  | [x] => x
  | x :: xs => x ++ ", " ++ joinComma xs

/-! ### `QueryEngine._get_field_value` -/

/-- `QueryEngine._get_field_value(student, field)`: resolve a field name
(case-insensitively) against a record, including the computed
`AVG_GRADE` and `COURSE_COUNT`; unknown names fall through to a dict
lookup, which yields `None` since a record has no other keys. -/
def getFieldValue (st : Student) (field : String) : Value :=
  let f := pyUpper field
  if f = "ROLL_NO" then .s st.roll_no
  else if f = "NAME" then .s st.name
  else if f = "EMAIL" then .s st.email
  else if f = "COURSES" then .s (joinComma st.courses)
  else if f = "GRADES" then .s (joinComma (st.grades.map (fun g => pyStr (.n g))))
  else if f = "AVG_GRADE" then
    .n (if st.grades = [] then 0 else st.grades.sum / (st.grades.length : Rat))
  else if f = "COURSE_COUNT" then .n (st.courses.length : Rat)
  else .vnone

/-! ### `QueryEngine._compare_values` and condition evaluation -/

/-- Python `a < b` on character lists: lexicographic by codepoint. -/
def clLt : List Char → List Char → Bool
  | [], [] => false
  | [], _ :: _ => true
  | _ :: _, [] => false
  | a :: as, b :: bs =>
    if a.toNat < b.toNat then true
    else if b.toNat < a.toNat then false
    else clLt as bs

/-- Python `a < b` on strings (codepoint-lexicographic). -/
def strLtB (a b : String) : Bool := clLt a.data b.data

/-- `QueryEngine._compare_values(student, field, operator, value)`.
Returns `False` when the field resolves to `None`; `=`/`!=`/`LIKE`/`IN`
compare case-insensitively on strings; the four order operators try numeric
coercion of both operands and fall back to (case-sensitive) string
comparison when either coercion fails. -/
def compareValues (st : Student) (field op value : String) : Bool :=
  match getFieldValue st field with
  | .vnone => false
  | sv =>
    if op = "=" then pyUpper (pyStr sv) = pyUpper value
    else if op = "!=" then pyUpper (pyStr sv) ≠ pyUpper value
    else if op = "LIKE" then occursIn (pyUpper value) (pyUpper (pyStr sv))
    else if op = ">" || op = "<" || op = ">=" || op = "<=" then
      match floatOf sv, parseFloatQ value with
      | some a, some b =>
        if op = ">" then decide (b < a)
        else if op = "<" then decide (a < b)
        else if op = ">=" then decide (b ≤ a)
        else decide (a ≤ b)
      | _, _ =>
        let a := pyStr sv
        if op = ">" then strLtB value a
        else if op = "<" then strLtB a value
        else if op = ">=" then !strLtB a value
        else !strLtB value a
    else if op = "IN" then
      ((pySplitOn "," value).map (fun v => pyUpper (stripQuotes (pyStrip v)))).contains
        (pyUpper (pyStr sv))
    else false

/-- The operator list of `QueryEngine._evaluate_single_condition`,
searched in order. -/
def opList : List String := [">=", "<=", "!=", "=", ">", "<", "LIKE", "IN"]

/-- Loop body of `QueryEngine._evaluate_single_condition`: try each operator
in order; the first one occurring in the condition splits it (at the first
occurrence) into field and value; if none occurs the code raises
`Invalid condition`. -/
def evalSingleGo (st : Student) (cond : String) : List String → Except String Bool
  | [] => .error ("Invalid condition: " ++ cond)
  | op :: rest =>
    if occursIn op cond then
      match splitFirst op.data cond.data with
      | some (f, v) =>
        .ok (compareValues st (pyStrip (String.mk f)) op (stripQuotes (pyStrip (String.mk v))))
      | none => evalSingleGo st cond rest
    else evalSingleGo st cond rest

/-- `QueryEngine._evaluate_single_condition(student, condition)`. -/
def evalSingleCondition (st : Student) (cond : String) : Except String Bool :=
  evalSingleGo st cond opList

/-- Python `all(...)` over the stripped `AND` fragments: short-circuits at
the first `False` (later fragments are then not evaluated). -/
def allEval (st : Student) : List String → Except String Bool
  | [] => .ok true
  | c :: cs =>
    match evalSingleCondition st (pyStrip c) with
    | .error e => .error e
    | .ok false => .ok false
    | .ok true => allEval st cs

/-- Python `any(...)` over the stripped `OR` fragments: short-circuits at
the first `True`. -/
def anyEval (st : Student) : List String → Except String Bool
  | [] => .ok false
  | c :: cs =>
    match evalSingleCondition st (pyStrip c) with
    | .error e => .error e
    | .ok true => .ok true
    | .ok false => anyEval st cs

/-- `QueryEngine._evaluate_condition(student, condition)`: a condition
containing `' AND '` is split on it and all fragments must hold; otherwise
one containing `' OR '` is split on it and some fragment must hold;
otherwise it is a single condition. -/
def evalCondition (st : Student) (cond : String) : Except String Bool :=
  if occursIn " AND " cond then allEval st (pySplitOn " AND " cond)
  else if occursIn " OR " cond then anyEval st (pySplitOn " OR " cond)
  else evalSingleCondition st cond

/-- `QueryEngine._apply_where_clause(students, where_clause)`: keep the
records whose condition evaluates truthy, in order; a raised exception
aborts the loop. -/
def applyWhereClause (clause : String) : List Student → Except String (List Student)
  | [] => .ok []
  | st :: rest => do
    let b ← evalCondition st clause
    let r ← applyWhereClause clause rest
    pure (if b then st :: r else r)

/-! ### `QueryEngine._apply_order_by` -/

/-- A sort key produced in `_apply_order_by.sort_key`: a number when the
field value coerces to float, else an uppercased string. -/
inductive SKey
  | num (q : Rat)
  | str (s : String)
deriving DecidableEq, Repr

/-- `sort_key(student)` inside `QueryEngine._apply_order_by`:
`None` becomes `''`, numbers stay numeric, strings parse to a number when
possible and otherwise uppercase. -/
def sortKeyOf (st : Student) (field : String) : SKey :=
  match getFieldValue st field with
  | .vnone => .str ""
  | .n q => .num q
  | .s v =>
    match parseFloatQ v with
    | some q => .num q
    | none => .str (pyUpper v)

/-- Is the key numeric? -/
def isNumKey : SKey → Bool
  | .num _ => true
  | .str _ => false

/-- Comparable-key order.  Python compares only keys of one kind (a mixed
list raises `TypeError`, handled separately); the cross-kind values below
make the relation total but are never reached by the sort. -/
def keyLE : SKey → SKey → Bool
  | .num a, .num b => decide (a ≤ b)
  | .str a, .str b => !clLt b.data a.data
  | .num _, .str _ => true
  | .str _, .num _ => false

/-- Stable insertion, placing `a` before the first element `b` with
`le a b`; equal elements therefore keep their relative order.  This is the
behaviour of Python's stable `sorted`, for both directions. -/
def insertBy (le : α → α → Bool) (a : α) : List α → List α
  | [] => [a]
  | b :: l => if le a b then a :: b :: l else b :: insertBy le a l

/-- Stable sort modelling Python `sorted(students, key=sort_key, reverse=r)`:
with `le` the ascending (or, for `reverse=True`, descending) key comparison.
Python's sort with `reverse=True` is still stable — equal elements keep
their original order — which this models by inserting earlier elements in
front of equal later ones. -/
def sortBy (le : α → α → Bool) : List α → List α
  | [] => []
  | a :: l => insertBy le a (sortBy le l)

/-- The direction defaulting of `_apply_order_by`: `parts[1]` when it is
`ASC` or `DESC` (after uppercasing), else `ASC`. -/
def dirOf : List String → String
  | d :: _ => if pyUpper d = "ASC" || pyUpper d = "DESC" then pyUpper d else "ASC"
  | [] => "ASC"

/-- `QueryEngine._apply_order_by(students, order_clause)`.
`order_clause.split()` yields the field and optional direction; an empty
clause raises `IndexError` at `parts[0]` (outside the `try`, so the message
is not prefixed); a key list mixing numbers and strings makes Python's
`sorted` raise `TypeError`, wrapped by the `except` into an
`Error in ORDER BY:` message (text abridged in this model). -/
def applyOrderBy (clause : String) (students : List Student) : Except String (List Student) :=
  match (pySplitOn " " clause).filter (fun p => p ≠ "") with
  | [] => .error "list index out of range"
  | f :: rest =>
    if (students.map (fun st => sortKeyOf st f)).any isNumKey
        && (students.map (fun st => sortKeyOf st f)).any (fun k => !isNumKey k) then
      .error "Error in ORDER BY: unorderable types"
    else if dirOf rest = "DESC" then
      .ok (sortBy (fun a b => keyLE (sortKeyOf b f) (sortKeyOf a f)) students)
    else
      .ok (sortBy (fun a b => keyLE (sortKeyOf a f) (sortKeyOf b f)) students)

/-! ### `QueryEngine._apply_group_by` -/

/-- The group key `str(group_value)` with `None` replaced by `'NULL'`. -/
def groupKeyOf (st : Student) (field : String) : String :=
  match getFieldValue st field with
  | .vnone => "NULL"
  | v => pyStr v

/-- Append a member under its key in the insertion-ordered dict `groups`
(new keys go to the end, as in a Python dict). -/
def insertGroup (k : String) (st : Student) :
    List (String × List Student) → List (String × List Student)
  | [] => [(k, [st])]
  | (k', l) :: rest =>
    if k' = k then (k', l ++ [st]) :: rest else (k', l) :: insertGroup k st rest

/-- The insertion-ordered `groups` dict of `_apply_group_by`. -/
def buildGroups (field : String) (students : List Student) : List (String × List Student) :=
  students.foldl (fun gs st => insertGroup (groupKeyOf st field) st gs) []

/-- One grouped result row: `{'group': ..., 'count': ..., 'students': ...}`. -/
structure GroupRow where
  group : String
  count : Nat
  members : List Student
deriving DecidableEq, Repr

/-- `QueryEngine._apply_group_by(students, group_clause)`. -/
def applyGroupBy (clause : String) (students : List Student) : List GroupRow :=
  (buildGroups (pyStrip clause) students).map (fun g => ⟨g.1, g.2.length, g.2⟩)

/-! ### `QueryEngine._apply_select` -/

/-- Insert into an insertion-ordered dict row, overwriting in place on a
repeated key. -/
def dictInsert (k : String) (v : Value) :
    List (String × Value) → List (String × Value)
  | [] => [(k, v)]
  | (k', v') :: r => if k' = k then (k', v) :: r else (k', v') :: dictInsert k v r

/-- The projected dict for one student. -/
def projectStudent (fields : List String) (st : Student) : List (String × Value) :=
  fields.foldl (fun row f => dictInsert (pyLower f) (getFieldValue st f) row) []

/-- `QueryEngine._apply_select(students, select_clause)` for a non-`*`
clause: a comma-separated field list, each stripped and uppercased. -/
def applySelect (clause : String) (students : List Student) :
    List (List (String × Value)) :=
  let fields := (pySplitOn "," clause).map (fun f => pyUpper (pyStrip f))
  students.map (projectStudent fields)

/-! ### `QueryEngine._parse_query`

The parser runs ordered `re.search` extractions over the query after
collapsing whitespace, so in the model `\s+` always matches the single
space that normalisation leaves. -/

/-- The lazy capture `(.+?)` followed by `(?:\s+T1|...|$)`: at least one
character, extended until a terminator matches at the current position or
the string ends. -/
def captureGo (terms : List (List Char)) : List Char → List Char
  | [] => []
  | c :: rest =>
    if terms.any (fun t => t.isPrefixOf (c :: rest)) then []
    else c :: captureGo terms rest

/-- `(.+?)(?:T1|...|$)` on the text after the keyword: fails on an empty
remainder (the capture needs one character). -/
def lazyCapture (terms : List (List Char)) : List Char → Option (List Char)
  | [] => none
  | c :: rest => some (c :: captureGo terms rest)

/-- After the keyword, `\s+` must match (one space on normalised input,
further spaces absorbed), then the lazy capture runs. -/
def afterKw (terms : List (List Char)) : List Char → Option (List Char)
  | ' ' :: r => lazyCapture terms (r.dropWhile (fun c => c = ' '))
  | _ => none

/-- `re.search(kw + r'\s+(.+?)(?:\s+T1|...|$)', s)`: scan left to right for
an occurrence of the keyword at which the rest of the pattern matches. -/
def searchClause (kw : List Char) (terms : List (List Char)) : List Char → Option (List Char)
  | [] => none
  | c :: s =>
    if kw.isPrefixOf (c :: s) then
      match afterKw terms ((c :: s).drop kw.length) with
      | some cap => some cap
      | none => searchClause kw terms s
    else searchClause kw terms s

/-- The digits of `LIMIT\s+(\d+)` at one candidate position. -/
def limitAfter : List Char → Option (List Char)
  | ' ' :: r =>
    if ((r.dropWhile (fun c => c = ' ')).takeWhile Char.isDigit).isEmpty then none
    else some ((r.dropWhile (fun c => c = ' ')).takeWhile Char.isDigit)
  | _ => none

/-- `re.search(r'LIMIT\s+(\d+)', s)`: scan for an occurrence of `LIMIT`
followed by whitespace and at least one digit; the digit run is captured
greedily. -/
def searchLimit : List Char → Option (List Char)
  | [] => none
  | c :: s =>
    if "LIMIT".data.isPrefixOf (c :: s) then
      match limitAfter ((c :: s).drop 5) with
      | some ds => some ds
      | none => searchLimit s
    else searchLimit s

/-- The parsed-query dict built by `QueryEngine._parse_query`. -/
structure Parsed where
  select : String
  whereClause : Option String
  orderBy : Option String
  groupBy : Option String
  limit : Option String
deriving DecidableEq, Repr

/-- `QueryEngine._parse_query(query)`: normalise whitespace, then extract the
clauses with the ordered regex searches; a missing `SELECT` raises. -/
def parseQuery (q : String) : Except String Parsed :=
  let s := stripP Char.isWhitespace (collapseWs q.data)
  match searchClause "SELECT".data [" FROM".data] s with
  | none => .error "Invalid query: Missing SELECT clause"
  | some sel =>
    .ok { select := pyStrip (String.mk sel)
          whereClause :=
            (searchClause "WHERE".data
              [" ORDER BY".data, " GROUP BY".data, " LIMIT".data] s).map
              (fun c => pyStrip (String.mk c))
          orderBy :=
            (searchClause "ORDER BY".data [" LIMIT".data] s).map
              (fun c => pyStrip (String.mk c))
          groupBy :=
            (searchClause "GROUP BY".data [" ORDER BY".data, " LIMIT".data] s).map
              (fun c => pyStrip (String.mk c))
          limit := (searchLimit s).map String.mk }

/-! ### `QueryEngine.execute_query` -/

/-- A query result: a record list, a projected row list, or grouped rows. -/
inductive QResult
  | recs (rows : List Student)
  | projected (rows : List (List (String × Value)))
  | grouped (rows : List GroupRow)
deriving DecidableEq, Repr

/-- The evaluation pipeline of `QueryEngine.execute_query` after parsing:
WHERE filter, then either the GROUP BY early return, or ORDER BY, LIMIT
truncation (`int` on the captured digits), and SELECT projection last. -/
def evalParsed (snap : List Student) (p : Parsed) : Except String QResult :=
  match (match p.whereClause with
         | some w => applyWhereClause w snap
         | none => .ok snap) with
  | .error e => .error e
  | .ok fs =>
    match p.groupBy with
    | some g => .ok (.grouped (applyGroupBy g fs))
    | none =>
      match (match p.orderBy with
             | some ob => applyOrderBy ob fs
             | none => .ok fs) with
      | .error e => .error e
      | .ok os =>
        let ls := match p.limit with
                  | some d => os.take (digitsToNat d.data)
                  | none => os
        if p.select ≠ "*" then .ok (.projected (applySelect p.select ls))
        else .ok (.recs ls)

/-- `QueryEngine.execute_query(query_string)` over a snapshot of the store:
strip and uppercase the query, parse, evaluate; every raised exception is
wrapped into `Query execution error: ...`. -/
def executeQuery (snap : List Student) (q : String) : Except String QResult :=
  match parseQuery (pyUpper (pyStrip q)) with
  | .error e => .error ("Query execution error: " ++ e)
  | .ok p =>
    match evalParsed snap p with
    | .error e => .error ("Query execution error: " ++ e)
    | .ok r => .ok r

/-- The keyword blacklist of `QueryEngine.validate_query`. -/
def unsupportedOps : List String := ["INSERT", "UPDATE", "DELETE", "DROP", "CREATE"]

/-- `QueryEngine.validate_query(query_string)`: must start with `SELECT`,
must not contain any blacklisted keyword (checked in order, as substrings). -/
def validateQuery (q : String) : Bool × String :=
  let qu := pyUpper (pyStrip q)
  if !pyStartsWith qu "SELECT" then (false, "Query must start with SELECT")
  else if !occursIn "SELECT" qu then (false, "Missing SELECT clause")
  else
    match unsupportedOps.find? (fun op => occursIn op qu) with
    | some op => (false, "Unsupported operation: " ++ op)
    | none => (true, "Query is valid")

/-! ### `LinkedList` (`src/data_structures.py`)

The node chain is modelled by the list of node payloads in traversal
order, together with the separately maintained `size` counter. -/

/-- `LinkedList.find(roll_no)`: first node whose data has this roll number. -/
def llFind (roll : String) : List Student → Option Student
  | [] => none
  | st :: rest => if st.roll_no = roll then some st else llFind roll rest

/-- `LinkedList.delete(roll_no)` on the node chain: unlink the first
matching node; also report whether a node was removed. -/
def llDelete (roll : String) : List Student → List Student × Bool
  | [] => ([], false)
  | st :: rest =>
    if st.roll_no = roll then (rest, true)
    else
      let r := llDelete roll rest
      (st :: r.1, r.2)

/-- `LinkedList.update(roll_no, new_data)` on the node chain: rebind the
data of the first matching node. -/
def llUpdate (roll : String) (nd : Student) : List Student → List Student × Bool
  | [] => ([], false)
  | st :: rest =>
    if st.roll_no = roll then (nd :: rest, true)
    else
      let r := llUpdate roll nd rest
      (st :: r.1, r.2)

/-- The linked list: node payloads in order plus the `size` counter. -/
structure LinkedList where
  nodes : List Student
  size : Nat
deriving DecidableEq, Repr

/-- `LinkedList()`. -/
def LinkedList.empty : LinkedList := ⟨[], 0⟩

/-- `LinkedList.append(data)`. -/
def LinkedList.append (l : LinkedList) (d : Student) : LinkedList :=
  ⟨l.nodes ++ [d], l.size + 1⟩

/-- `LinkedList.prepend(data)`. -/
def LinkedList.prepend (l : LinkedList) (d : Student) : LinkedList :=
  ⟨d :: l.nodes, l.size + 1⟩

/-- `LinkedList.delete(roll_no)`: decrement `size` only when a node was
actually removed. -/
def LinkedList.deleteRoll (l : LinkedList) (roll : String) : LinkedList × Bool :=
  let r := llDelete roll l.nodes
  (⟨r.1, if r.2 then l.size - 1 else l.size⟩, r.2)

/-- `LinkedList.update(roll_no, new_data)`. -/
def LinkedList.updateRoll (l : LinkedList) (roll : String) (nd : Student) :
    LinkedList × Bool :=
  let r := llUpdate roll nd l.nodes
  (⟨r.1, l.size⟩, r.2)

/-- `LinkedList.find(roll_no)`. -/
def LinkedList.findRoll (l : LinkedList) (roll : String) : Option Student :=
  llFind roll l.nodes

/-- `LinkedList.to_list()`: a fresh list of the node payloads in order. -/
def LinkedList.toList (l : LinkedList) : List Student := l.nodes

/-- `LinkedList.get_length()`: returns the stored counter. -/
def LinkedList.getLength (l : LinkedList) : Nat := l.size

/-- `LinkedList.is_empty()`: `head is None`. -/
def LinkedList.isEmptyB (l : LinkedList) : Bool := l.nodes.isEmpty

/-! ### `Stack` (`src/data_structures.py`) -/

/-- The bounded stack: `items` with the top at the end, plus `max_size`. -/
structure Stack (α : Type u) where
  items : List α
  maxSize : Nat
deriving Repr

/-- `Stack.push(item)`: at capacity, `pop(0)` evicts the oldest item first.
(When `max_size = 0` Python's `pop(0)` on an empty list would raise; the
stacks in the program have capacity 100, and the theorems assume a positive
capacity.) -/
def Stack.push (s : Stack α) (x : α) : Stack α :=
  { s with items := (if s.maxSize ≤ s.items.length then s.items.drop 1 else s.items) ++ [x] }

/-- `Stack.pop()`: remove and return the top item, `None` when empty. -/
def Stack.pop (s : Stack α) : Option α × Stack α :=
  match s.items.getLast? with
  | none => (none, s)
  | some x => (some x, { s with items := s.items.dropLast })

/-- `Stack.is_empty()`. -/
def Stack.isEmptyB (s : Stack α) : Bool := s.items.isEmpty

/-- `Stack.to_list()`: top to bottom. -/
def Stack.toListTB (s : Stack α) : List α := s.items.reverse

/-- Push a sequence of items in order. -/
def Stack.pushAll (s : Stack α) (xs : List α) : Stack α := xs.foldl Stack.push s

/-! ### `StudentManager` (`src/core/student_manager.py`)

Timestamps, the JSON persistence (`save_data`/`load_data`) and the
secondary `StudentDataProcessor` log are external to every claim and are
omitted; the operation-history entries keep exactly the undo-relevant
payload the source stores. -/

/-- One entry of the undo history. -/
inductive HistEntry
  | add (data : Student)
  | update (roll : String) (oldData newData : Student)
  | del (data : Student)
deriving DecidableEq, Repr

/-- The manager state: the linked list of records and the
`Stack(100)` operation history. -/
structure Manager where
  students : LinkedList
  history : Stack HistEntry
deriving Repr

/-- `StudentManager()` before any mutation (with no data file present). -/
def Manager.initial : Manager := ⟨LinkedList.empty, ⟨[], 100⟩⟩

/-- `StudentManager.add_student(student_data)`: fail on an existing roll
number before logging anything; otherwise log an `add` entry and append. -/
def addStudent (d : Student) (m : Manager) : Bool × Manager :=
  match m.students.findRoll d.roll_no with
  | some _ => (false, m)
  | none =>
    (true, { students := m.students.append d
             history := m.history.push (.add d) })

/-- `StudentManager.update_student(roll_no, new_data)`: fail when absent;
otherwise log the pre- and post-image, then rebind the node data. -/
def updateStudent (roll : String) (nd : Student) (m : Manager) : Bool × Manager :=
  match m.students.findRoll roll with
  | none => (false, m)
  | some old =>
    let h := m.history.push (.update roll old nd)
    let r := m.students.updateRoll roll nd
    (r.2, { students := r.1, history := h })

/-- `StudentManager.delete_student(roll_no)`: fail when absent; otherwise
log the deleted record, then unlink it. -/
def deleteStudent (roll : String) (m : Manager) : Bool × Manager :=
  match m.students.findRoll roll with
  | none => (false, m)
  | some d =>
    let h := m.history.push (.del d)
    let r := m.students.deleteRoll roll
    (r.2, { students := r.1, history := h })

/-- `StudentManager.get_all_students()`: the snapshot handed to the query
engine. -/
def getAllStudents (m : Manager) : List Student := m.students.toList

/-- `StudentManager.undo_last_operation()`: pop the most recent entry and
replay its inverse.  The replay helpers return booleans rather than
raising, so the `except`/push-back branch of the source is unreachable. -/
def undoLast (m : Manager) : (Bool × String) × Manager :=
  match m.history.pop with
  | (none, _) => ((false, "No operations to undo"), m)
  | (some e, h') =>
    match e with
    | .add d =>
      ((true, "Successfully undid add operation"),
       { students := (m.students.deleteRoll d.roll_no).1, history := h' })
    | .del d =>
      ((true, "Successfully undid delete operation"),
       { students := m.students.append d, history := h' })
    | .update roll old _ =>
      ((true, "Successfully undid update operation"),
       { students := (m.students.updateRoll roll old).1, history := h' })

/-- The pop-and-remember loop of `StudentManager.get_operation_history`:
pop up to `limit` entries (most recent first) into the result, pushing each
onto the capacity-100 temporary stack. -/
def popLoop (s t : Stack HistEntry) (acc : List HistEntry) :
    Nat → List HistEntry × Stack HistEntry × Stack HistEntry
  | 0 => (acc, s, t)
  | n + 1 =>
    match s.pop with
    | (none, _) => (acc, s, t)
    | (some x, s') => popLoop s' (t.push x) (acc ++ [x]) n

/-- The restore loop of `StudentManager.get_operation_history`: popping the
temporary stack until empty yields its items from top (end of `items`) to
bottom, each pushed back onto the history. -/
def restoreLoop (t s : Stack HistEntry) : Stack HistEntry :=
  s.pushAll t.items.reverse

/-- `StudentManager.get_operation_history(limit)`: non-destructive read of
the most recent entries, most recent first (`Stack()` defaults to capacity
100 for the temporary stack). -/
def getOperationHistory (m : Manager) (limit : Nat) : List HistEntry × Manager :=
  ((popLoop m.history ⟨[], 100⟩ [] limit).1,
   { m with
     history := restoreLoop (popLoop m.history ⟨[], 100⟩ [] limit).2.2
                  (popLoop m.history ⟨[], 100⟩ [] limit).2.1 })

/-- The mutations a sequence of which the history-bound claims quantify
over (undo included so that reachable states are closed under it). -/
inductive MOp
  | add (d : Student)
  | upd (roll : String) (d : Student)
  | del (roll : String)
  | undo
deriving Repr

/-- Apply one mutation, discarding the reported status. -/
def applyMOp (m : Manager) : MOp → Manager
  | .add d => (addStudent d m).2
  | .upd roll d => (updateStudent roll d m).2
  | .del roll => (deleteStudent roll m).2
  | .undo => (undoLast m).2

/-- Apply a sequence of mutations to the fresh manager. -/
def applyMOps (ops : List MOp) : Manager := ops.foldl applyMOp Manager.initial

/-! ### Operations for the `LinkedList` size invariant -/

/-- One linked-list operation of the invariant claim. -/
inductive LOp
  | app (d : Student)
  | pre (d : Student)
  | del (roll : String)
  | upd (roll : String) (d : Student)
deriving Repr

/-- Apply one linked-list operation. -/
def applyLOp (l : LinkedList) : LOp → LinkedList
  | .app d => l.append d
  | .pre d => l.prepend d
  | .del roll => (l.deleteRoll roll).1
  | .upd roll d => (l.updateRoll roll d).1

/-- Apply a sequence of linked-list operations to the empty list. -/
def applyLOps (ops : List LOp) : LinkedList := ops.foldl applyLOp LinkedList.empty

/-! ### Heap-level model for snapshot isolation

`LinkedList.to_list` builds a fresh Python list whose elements are the node
data dicts themselves, so snapshot isolation is a statement about aliasing:
no store mutation writes through an existing reference.  `append` stores
the caller's (fresh) dict, `update` rebinds `node.data` to the caller's new
dict, and `delete` only unlinks a node; none of them mutates a dict in
place.  The model makes this explicit with an allocation heap: addresses
are allocated fresh and heap cells are never overwritten. -/

/-- The heap: allocated `(address, record)` cells, a fresh-address counter,
and the store's node chain as the list of data addresses in order. -/
structure HeapState where
  heap : List (Nat × Student)
  nextAddr : Nat
  order : List Nat
deriving Repr

/-- Dereference an address. -/
def hLookup (h : List (Nat × Student)) (a : Nat) : Option Student :=
  (h.find? (fun p => p.1 = a)).map (fun p => p.2)

/-- The first node (address) whose record has the given roll number —
the traversal of `LinkedList.find`/`delete`/`update`. -/
def hFindRoll (s : HeapState) (roll : String) : Option Nat :=
  s.order.find? (fun a =>
    match hLookup s.heap a with
    | some st => st.roll_no = roll
    | none => false)

/-- Replace the first occurrence of `a` (the found node) by `b`. -/
def replaceFirstAddr (a b : Nat) : List Nat → List Nat
  | [] => []
  | x :: l => if x = a then b :: l else x :: replaceFirstAddr a b l

/-- Remove the first occurrence of `a` (unlink the found node). -/
def removeFirstAddr (a : Nat) : List Nat → List Nat
  | [] => []
  | x :: l => if x = a then l else x :: removeFirstAddr a l

/-- `add_student` at heap level: the caller's record is a fresh allocation,
appended to the chain after the duplicate check. -/
def hAdd (d : Student) (s : HeapState) : Bool × HeapState :=
  match hFindRoll s d.roll_no with
  | some _ => (false, s)
  | none =>
    (true, { heap := s.heap ++ [(s.nextAddr, d)]
             nextAddr := s.nextAddr + 1
             order := s.order ++ [s.nextAddr] })

/-- `update_student` at heap level: allocate the new record fresh and
rebind the first matching node's data reference to it; the old cell is
untouched. -/
def hUpdate (roll : String) (nd : Student) (s : HeapState) : Bool × HeapState :=
  match hFindRoll s roll with
  | none => (false, s)
  | some a =>
    (true, { heap := s.heap ++ [(s.nextAddr, nd)]
             nextAddr := s.nextAddr + 1
             order := replaceFirstAddr a s.nextAddr s.order })

/-- `delete_student` at heap level: unlink the first matching node. -/
def hDelete (roll : String) (s : HeapState) : Bool × HeapState :=
  match hFindRoll s roll with
  | none => (false, s)
  | some a => (true, { s with order := removeFirstAddr a s.order })

/-- `snapshot()` (`get_all_students` via `to_list`): a fresh list holding
the same data references as the store's nodes. -/
def hSnapshot (s : HeapState) : List Nat := s.order

/-- The records a snapshot's references designate, under a given heap. -/
def derefAll (h : List (Nat × Student)) (addrs : List Nat) : List (Option Student) :=
  addrs.map (hLookup h)

/-- Every store reference points below the allocation counter (true of all
reachable heap states). -/
def addrOk (s : HeapState) : Prop :=
  (∀ a ∈ s.order, a < s.nextAddr) ∧ ∀ p ∈ s.heap, p.1 < s.nextAddr

/-- The three mutating operations of the isolation claim. -/
inductive HOp
  | add (d : Student)
  | upd (roll : String) (d : Student)
  | del (roll : String)
deriving Repr

/-- Apply one heap-level mutation. -/
def applyHOp (s : HeapState) : HOp → HeapState
  | .add d => (hAdd d s).2
  | .upd roll d => (hUpdate roll d s).2
  | .del roll => (hDelete roll s).2

/-! ### Concrete records used by witnesses and counterexamples -/

/-- A concrete student. -/
def stA : Student := ⟨"1", "ALICE", "a@x", ["Math"], [90]⟩

/-- A concrete student sharing `name` with `stA` (for sort ties). -/
def stB : Student := ⟨"2", "ALICE", "b@x", [], []⟩

/-- A concrete student with a different name. -/
def stC : Student := ⟨"3", "BOB", "c@x", [], []⟩

/-- `stA` with a changed roll number (a roll-changing update image). -/
def stA2 : Student := ⟨"9", "ALICE", "a@x", ["Math"], [90]⟩

/-- The query text as it reaches the regex searches of `_parse_query`:
`execute_query` strips and uppercases, the parser collapses whitespace. -/
def normalizedQuery (q : String) : List Char :=
  stripP Char.isWhitespace (collapseWs (pyUpper (pyStrip q)).data)

/-! ## Theorems -/

theorem searchClause_eq_none_of_not_occurs (kw : List Char) (terms : List (List Char)) :
    ∀ s : List Char, occursCL kw s = false → searchClause kw terms s = none := by
  intro s
  induction s with
  | nil =>
    intro h
    unfold occursCL at h
    unfold searchClause
    rfl
  | cons c s ih =>
    intro h
    unfold occursCL at h
    rw [Bool.or_eq_false_iff] at h
    unfold searchClause
    rw [if_neg (by simp [h.1])]
    exact ih h.2

/-- C1 (amended).  The query engine never mutates the store: `execute_query`
is a pure function of the snapshot.  A query whose normalised text does not
contain `SELECT` (such as `DROP TABLE students`) always fails, but with the
missing-`SELECT` parse error — the `UnsupportedQuery`-style keyword
rejection lives only in `validate_query`, which rejects every query
containing one of INSERT/UPDATE/DELETE/DROP/CREATE; `execute_query` itself
runs a non-SELECT statement as a read when it embeds a `SELECT` clause
(see the counterexample). -/
theorem C1_nonselect_rejected :
    (∀ (snap : List Student) (q : String),
        occursCL "SELECT".data (normalizedQuery q) = false →
        executeQuery snap q =
          .error "Query execution error: Invalid query: Missing SELECT clause")
    ∧ (∀ q : String,
        (∃ op ∈ unsupportedOps, occursIn op (pyUpper (pyStrip q)) = true) →
        (validateQuery q).1 = false) := by
  constructor
  · intro snap q h
    unfold normalizedQuery at h
    have hnone := searchClause_eq_none_of_not_occurs "SELECT".data [" FROM".data] _ h
    unfold executeQuery parseQuery
    simp only [hnone]
    rfl
  · intro q hop
    obtain ⟨op, hmem, hocc⟩ := hop
    unfold validateQuery
    by_cases hs : pyStartsWith (pyUpper (pyStrip q)) "SELECT"
    · by_cases hsel : occursIn "SELECT" (pyUpper (pyStrip q))
      · simp only [hs, hsel, Bool.not_true, Bool.false_eq_true, if_false]
        cases hfind : unsupportedOps.find? (fun o => occursIn o (pyUpper (pyStrip q))) with
        | some o => simp [hfind]
        | none =>
          rw [List.find?_eq_none] at hfind
          exact absurd hocc (by simpa using hfind op hmem)
      · simp only [hsel]
        split <;> rfl
    · simp [hs]

/-- C1 witness: `DROP TABLE students` fails through `execute_query` with the
missing-`SELECT` error and is rejected by `validate_query`. -/
theorem C1_nonselect_rejected_witness :
    executeQuery [stA] "DROP TABLE students" =
      .error "Query execution error: Invalid query: Missing SELECT clause"
    ∧ (validateQuery "DROP TABLE students").1 = false :=
  ⟨C1_nonselect_rejected.1 [stA] "DROP TABLE students" (by decide),
   C1_nonselect_rejected.2 "DROP TABLE students" ⟨"DROP", by decide, by decide⟩⟩

/-- C1 counterexample: the non-SELECT statement `INSERT INTO SELECT *` does
not fail — `_parse_query` finds the embedded `SELECT` clause via `re.search`
and `execute_query` returns the full snapshot. -/
theorem C1_counterexample :
    executeQuery [stA] "INSERT INTO SELECT *" = .ok (.recs [stA])
    ∧ ¬ ∃ e, executeQuery [stA] "INSERT INTO SELECT *" = .error e := by
  have h1 : executeQuery [stA] "INSERT INTO SELECT *" = .ok (.recs [stA]) := by rfl
  refine ⟨h1, ?_⟩
  rintro ⟨e, he⟩
  rw [h1] at he
  exact Except.noConfusion he

/-- C3: inserting a record whose roll number is already present fails (the
`False`/`DuplicateKey` outcome), before the history push, the append, and
the save — the whole manager state is returned unchanged. -/
theorem C3_duplicate_insert_unchanged (m : Manager) (d r : Student)
    (h : m.students.findRoll d.roll_no = some r) :
    addStudent d m = (false, m) := by
  unfold addStudent
  rw [h]

/-- C3 witness: inserting a second record with roll number `"1"`. -/
theorem C3_duplicate_insert_unchanged_witness :
    addStudent ⟨"1", "Z", "z@x", [], []⟩ ⟨⟨[stA], 1⟩, ⟨[], 100⟩⟩ =
      (false, ⟨⟨[stA], 1⟩, ⟨[], 100⟩⟩) :=
  C3_duplicate_insert_unchanged _ _ stA (by decide)

theorem llFind_eq_none_iff (roll : String) :
    ∀ l : List Student, llFind roll l = none ↔ ∀ st ∈ l, st.roll_no ≠ roll := by
  intro l
  induction l with
  | nil => simp [llFind]
  | cons st rest ih =>
    unfold llFind
    by_cases hst : st.roll_no = roll
    · simp [hst]
    · simp [hst, ih]

theorem llDelete_append_of_not_mem (roll : String) (d : Student) (hd : d.roll_no = roll) :
    ∀ l : List Student, (∀ st ∈ l, st.roll_no ≠ roll) →
      llDelete roll (l ++ [d]) = (l, true) := by
  intro l
  induction l with
  | nil => intro _; simp [llDelete, hd]
  | cons st rest ih =>
    intro h
    have hst : st.roll_no ≠ roll := h st (by simp)
    have ih' := ih (fun x hx => h x (by simp [hx]))
    simp [llDelete, hst, ih']

theorem llFind_eq_some_split (roll : String) (r : Student) :
    ∀ l : List Student, llFind roll l = some r →
      ∃ l1 l2, l = l1 ++ r :: l2 ∧ (∀ st ∈ l1, st.roll_no ≠ roll) ∧ r.roll_no = roll := by
  intro l
  induction l with
  | nil => intro h; exact absurd h (by simp [llFind])
  | cons st rest ih =>
    intro h
    unfold llFind at h
    by_cases hst : st.roll_no = roll
    · rw [if_pos hst] at h
      obtain rfl : st = r := by injection h
      exact ⟨[], rest, by simp, by simp, hst⟩
    · rw [if_neg hst] at h
      obtain ⟨l1, l2, heq, h1, hr⟩ := ih h
      refine ⟨st :: l1, l2, by simp [heq], ?_, hr⟩
      intro x hx
      rcases List.mem_cons.mp hx with rfl | hx
      · exact hst
      · exact h1 x hx

theorem llDelete_split (roll : String) (r : Student) (l1 l2 : List Student)
    (h1 : ∀ st ∈ l1, st.roll_no ≠ roll) (hr : r.roll_no = roll) :
    llDelete roll (l1 ++ r :: l2) = (l1 ++ l2, true) := by
  induction l1 with
  | nil => simp [llDelete, hr]
  | cons st rest ih =>
    have hst : st.roll_no ≠ roll := h1 st (by simp)
    have ih' := ih (fun x hx => h1 x (by simp [hx]))
    simp [llDelete, hst, ih']

theorem llUpdate_split (roll : String) (nd r : Student) (l1 l2 : List Student)
    (h1 : ∀ st ∈ l1, st.roll_no ≠ roll) (hr : r.roll_no = roll) :
    llUpdate roll nd (l1 ++ r :: l2) = (l1 ++ nd :: l2, true) := by
  induction l1 with
  | nil => simp [llUpdate, hr]
  | cons st rest ih =>
    have hst : st.roll_no ≠ roll := h1 st (by simp)
    have ih' := ih (fun x hx => h1 x (by simp [hx]))
    simp [llUpdate, hst, ih']

theorem llFind_split (roll : String) (r : Student) (l1 l2 : List Student)
    (h1 : ∀ st ∈ l1, st.roll_no ≠ roll) (hr : r.roll_no = roll) :
    llFind roll (l1 ++ r :: l2) = some r := by
  induction l1 with
  | nil => simp [llFind, hr]
  | cons st rest ih =>
    have hst : st.roll_no ≠ roll := h1 st (by simp)
    have ih' := ih (fun x hx => h1 x (by simp [hx]))
    simp [llFind, hst, ih']

theorem Stack.pop_push (s : Stack α) (x : α) :
    (s.push x).pop =
      (some x,
       ⟨(if s.maxSize ≤ s.items.length then s.items.drop 1 else s.items), s.maxSize⟩) := by
  unfold Stack.push Stack.pop
  simp

/-- After a push, `undo_last_operation` pops exactly the pushed entry. -/
theorem undoLast_push_add (students : LinkedList) (hist : Stack HistEntry) (d : Student) :
    undoLast ⟨students, hist.push (.add d)⟩ =
      ((true, "Successfully undid add operation"),
       ⟨(students.deleteRoll d.roll_no).1,
        ⟨(if hist.maxSize ≤ hist.items.length then hist.items.drop 1 else hist.items),
         hist.maxSize⟩⟩) := by
  unfold undoLast
  rw [Stack.pop_push]

/-- After a push, `undo_last_operation` pops exactly the pushed entry. -/
theorem undoLast_push_del (students : LinkedList) (hist : Stack HistEntry) (d : Student) :
    undoLast ⟨students, hist.push (.del d)⟩ =
      ((true, "Successfully undid delete operation"),
       ⟨students.append d,
        ⟨(if hist.maxSize ≤ hist.items.length then hist.items.drop 1 else hist.items),
         hist.maxSize⟩⟩) := by
  unfold undoLast
  rw [Stack.pop_push]

/-- After a push, `undo_last_operation` pops exactly the pushed entry. -/
theorem undoLast_push_update (students : LinkedList) (hist : Stack HistEntry)
    (roll : String) (old nd : Student) :
    undoLast ⟨students, hist.push (.update roll old nd)⟩ =
      ((true, "Successfully undid update operation"),
       ⟨(students.updateRoll roll old).1,
        ⟨(if hist.maxSize ≤ hist.items.length then hist.items.drop 1 else hist.items),
         hist.maxSize⟩⟩) := by
  unfold undoLast
  rw [Stack.pop_push]

/-- `add_student` on a fresh roll number: log then append. -/
theorem addStudent_of_not_found (nodes : List Student) (size : Nat)
    (hist : Stack HistEntry) (d : Student) (h : llFind d.roll_no nodes = none) :
    addStudent d ⟨⟨nodes, size⟩, hist⟩ =
      (true, ⟨⟨nodes ++ [d], size + 1⟩, hist.push (.add d)⟩) := by
  unfold addStudent
  rw [show LinkedList.findRoll ⟨nodes, size⟩ d.roll_no = none from h]
  rfl

/-- `delete_student` on a store split at the first match: log then unlink. -/
theorem deleteStudent_split (size : Nat) (hist : Stack HistEntry) (roll : String)
    (r : Student) (l1 l2 : List Student)
    (h1 : ∀ st ∈ l1, st.roll_no ≠ roll) (hr : r.roll_no = roll) :
    deleteStudent roll ⟨⟨l1 ++ r :: l2, size⟩, hist⟩ =
      (true, ⟨⟨l1 ++ l2, size - 1⟩, hist.push (.del r)⟩) := by
  unfold deleteStudent
  rw [show LinkedList.findRoll ⟨l1 ++ r :: l2, size⟩ roll = some r from
        llFind_split roll r l1 l2 h1 hr]
  unfold LinkedList.deleteRoll
  simp [llDelete_split roll r l1 l2 h1 hr]

/-- `update_student` on a store split at the first match: log the pre- and
post-image, then rebind. -/
theorem updateStudent_split (size : Nat) (hist : Stack HistEntry) (roll : String)
    (old nd : Student) (l1 l2 : List Student)
    (h1 : ∀ st ∈ l1, st.roll_no ≠ roll) (hr : old.roll_no = roll) :
    updateStudent roll nd ⟨⟨l1 ++ old :: l2, size⟩, hist⟩ =
      (true, ⟨⟨l1 ++ nd :: l2, size⟩, hist.push (.update roll old nd)⟩) := by
  unfold updateStudent
  rw [show LinkedList.findRoll ⟨l1 ++ old :: l2, size⟩ roll = some old from
        llFind_split roll old l1 l2 h1 hr]
  unfold LinkedList.updateRoll
  simp [llUpdate_split roll nd old l1 l2 h1 hr]

/-- C2 (amended).  Undo exactly reverses the most recent successful
mutation, with one proviso the counterexample forces: for an update, the
new record must keep the roll number (the spec's own data model declares
`rollNumber` immutable).  Insert-then-undo restores the store exactly;
delete-then-undo restores the record count and re-inserts the deleted
record with identical field values (at the end of the traversal order, so
up to permutation); roll-preserving update-then-undo restores the store
exactly.  A roll-changing update succeeds but its undo silently fails to
restore the record. -/
theorem C2_undo_reverses_mutation (m : Manager) :
    (∀ d : Student, m.students.findRoll d.roll_no = none →
       (addStudent d m).1 = true ∧
       (undoLast (addStudent d m).2).2.students = m.students)
    ∧ (∀ (roll : String) (r : Student),
        m.students.size = m.students.nodes.length →
        m.students.findRoll roll = some r →
        (deleteStudent roll m).1 = true ∧
        (undoLast (deleteStudent roll m).2).2.students.size = m.students.size ∧
        ((undoLast (deleteStudent roll m).2).2.students.nodes).Perm m.students.nodes ∧
        r ∈ (undoLast (deleteStudent roll m).2).2.students.nodes)
    ∧ (∀ (roll : String) (old nd : Student),
        m.students.findRoll roll = some old → nd.roll_no = roll →
        (updateStudent roll nd m).1 = true ∧
        (undoLast (updateStudent roll nd m).2).2.students = m.students) := by
  obtain ⟨⟨nodes, size⟩, hist⟩ := m
  refine ⟨?_, ?_, ?_⟩
  · intro d h
    have hnm : ∀ st ∈ nodes, st.roll_no ≠ d.roll_no :=
      (llFind_eq_none_iff d.roll_no nodes).mp h
    rw [addStudent_of_not_found nodes size hist d h]
    refine ⟨rfl, ?_⟩
    rw [undoLast_push_add]
    unfold LinkedList.deleteRoll
    simp [llDelete_append_of_not_mem d.roll_no d rfl nodes hnm]
  · intro roll r hlen h
    obtain ⟨l1, l2, rfl, h1, hr⟩ := llFind_eq_some_split roll r nodes h
    have hsz : size = l1.length + l2.length + 1 := by
      simpa using hlen
    rw [deleteStudent_split size hist roll r l1 l2 h1 hr]
    rw [undoLast_push_del]
    refine ⟨rfl, ?_, ?_, ?_⟩
    · show size - 1 + 1 = size
      omega
    · show List.Perm ((l1 ++ l2) ++ [r]) (l1 ++ r :: l2)
      exact (List.perm_append_singleton r (l1 ++ l2)).trans List.perm_middle.symm
    · show r ∈ (l1 ++ l2) ++ [r]
      simp
  · intro roll old nd h hnd
    obtain ⟨l1, l2, rfl, h1, hr⟩ := llFind_eq_some_split roll old nodes h
    rw [updateStudent_split size hist roll old nd l1 l2 h1 hr]
    rw [undoLast_push_update]
    refine ⟨rfl, ?_⟩
    unfold LinkedList.updateRoll
    simp [llUpdate_split roll old nd l1 l2 h1 hnd]

/-- C2 witness: on a one-record store, insert-then-undo, delete-then-undo
and (roll-preserving) update-then-undo all restore the store. -/
theorem C2_undo_reverses_mutation_witness :
    ((addStudent stB ⟨⟨[stA], 1⟩, ⟨[], 100⟩⟩).1 = true ∧
       (undoLast (addStudent stB ⟨⟨[stA], 1⟩, ⟨[], 100⟩⟩).2).2.students = ⟨[stA], 1⟩)
    ∧ ((deleteStudent "1" ⟨⟨[stA], 1⟩, ⟨[], 100⟩⟩).1 = true ∧
       (undoLast (deleteStudent "1" ⟨⟨[stA], 1⟩, ⟨[], 100⟩⟩).2).2.students.size = 1 ∧
       ((undoLast (deleteStudent "1" ⟨⟨[stA], 1⟩, ⟨[], 100⟩⟩).2).2.students.nodes).Perm [stA] ∧
       stA ∈ (undoLast (deleteStudent "1" ⟨⟨[stA], 1⟩, ⟨[], 100⟩⟩).2).2.students.nodes)
    ∧ ((updateStudent "1" ⟨"1", "NEW", "n@x", [], []⟩ ⟨⟨[stA], 1⟩, ⟨[], 100⟩⟩).1 = true ∧
       (undoLast (updateStudent "1" ⟨"1", "NEW", "n@x", [], []⟩
          ⟨⟨[stA], 1⟩, ⟨[], 100⟩⟩).2).2.students = ⟨[stA], 1⟩) :=
  ⟨(C2_undo_reverses_mutation ⟨⟨[stA], 1⟩, ⟨[], 100⟩⟩).1 stB (by decide),
   (C2_undo_reverses_mutation ⟨⟨[stA], 1⟩, ⟨[], 100⟩⟩).2.1 "1" stA (by decide) (by decide),
   (C2_undo_reverses_mutation ⟨⟨[stA], 1⟩, ⟨[], 100⟩⟩).2.2 "1" stA
     ⟨"1", "NEW", "n@x", [], []⟩ (by decide) (by decide)⟩

/-- C2 counterexample: an update that changes the roll number succeeds, and
the subsequent undo reports success yet leaves the post-update record in
place — the pre-update field values are not restored. -/
theorem C2_counterexample :
    (updateStudent "1" stA2 ⟨⟨[stA], 1⟩, ⟨[], 100⟩⟩).1 = true
    ∧ (undoLast (updateStudent "1" stA2 ⟨⟨[stA], 1⟩, ⟨[], 100⟩⟩).2).1.1 = true
    ∧ (undoLast (updateStudent "1" stA2 ⟨⟨[stA], 1⟩, ⟨[], 100⟩⟩).2).2.students.nodes = [stA2]
    ∧ stA2 ≠ stA := by
  exact ⟨rfl, rfl, rfl, by decide⟩

theorem llDelete_length (roll : String) :
    ∀ l : List Student,
      ((llDelete roll l).2 = true → (llDelete roll l).1.length + 1 = l.length)
      ∧ ((llDelete roll l).2 = false → (llDelete roll l).1 = l) := by
  intro l
  induction l with
  | nil => simp [llDelete]
  | cons st rest ih =>
    by_cases hst : st.roll_no = roll
    · simp [llDelete, hst]
    · obtain ⟨ih1, ih2⟩ := ih
      constructor
      · intro h
        simp only [llDelete, if_neg hst] at h ⊢
        have := ih1 h
        simp only [List.length_cons]
        omega
      · intro h
        simp only [llDelete, if_neg hst] at h ⊢
        rw [ih2 h]

theorem llUpdate_length (roll : String) (nd : Student) :
    ∀ l : List Student, (llUpdate roll nd l).1.length = l.length := by
  intro l
  induction l with
  | nil => simp [llUpdate]
  | cons st rest ih =>
    by_cases hst : st.roll_no = roll
    · simp [llUpdate, hst]
    · simp [llUpdate, hst, ih]

theorem applyLOp_size (l : LinkedList) (op : LOp) (h : l.size = l.nodes.length) :
    (applyLOp l op).size = (applyLOp l op).nodes.length := by
  cases op with
  | app d => simp [applyLOp, LinkedList.append, h]
  | pre d => simp [applyLOp, LinkedList.prepend, h]
  | del roll =>
    unfold applyLOp LinkedList.deleteRoll
    cases hb : (llDelete roll l.nodes).2
    · simp only [hb, if_false, Bool.false_eq_true]
      rw [(llDelete_length roll l.nodes).2 hb]
      exact h
    · have hl := (llDelete_length roll l.nodes).1 hb
      simp only [hb, if_true]
      omega
  | upd roll d =>
    unfold applyLOp LinkedList.updateRoll
    simp [llUpdate_length, h]

/-- C10: for every operation sequence from the empty linked list, the
stored `size` counter equals the number of reachable nodes, so
`get_length` reports the true element count and `is_empty` holds exactly
when no node is reachable. -/
theorem C10_size_counter_invariant (ops : List LOp) :
    (applyLOps ops).size = (applyLOps ops).nodes.length
    ∧ (applyLOps ops).getLength = (applyLOps ops).nodes.length
    ∧ ((applyLOps ops).isEmptyB = true ↔ (applyLOps ops).nodes = [])
    ∧ ((applyLOps ops).isEmptyB = true ↔ (applyLOps ops).getLength = 0) := by
  have key : ∀ (ops : List LOp) (l : LinkedList), l.size = l.nodes.length →
      (ops.foldl applyLOp l).size = (ops.foldl applyLOp l).nodes.length := by
    intro ops
    induction ops with
    | nil => intro l h; exact h
    | cons op rest ih => intro l h; exact ih _ (applyLOp_size l op h)
  have h : (applyLOps ops).size = (applyLOps ops).nodes.length :=
    key ops LinkedList.empty rfl
  refine ⟨h, h, ?_, ?_⟩
  · simp [LinkedList.isEmptyB, List.isEmpty_iff]
  · rw [LinkedList.isEmptyB, List.isEmpty_iff, LinkedList.getLength, h,
      List.length_eq_zero]

theorem Stack.push_maxSize (s : Stack α) (x : α) : (s.push x).maxSize = s.maxSize := rfl

theorem Stack.push_length_le (s : Stack α) (x : α) (hmax : 1 ≤ s.maxSize)
    (h : s.items.length ≤ s.maxSize) : (s.push x).items.length ≤ s.maxSize := by
  unfold Stack.push
  by_cases hc : s.maxSize ≤ s.items.length
  · simp only [if_pos hc, List.length_append, List.length_drop, List.length_cons,
      List.length_nil]
    omega
  · simp only [if_neg hc, List.length_append, List.length_cons, List.length_nil]
    omega

theorem Stack.pop_snd_maxSize (s : Stack α) : (s.pop).2.maxSize = s.maxSize := by
  unfold Stack.pop
  split <;> rfl

theorem Stack.pop_snd_length_le (s : Stack α) : (s.pop).2.items.length ≤ s.items.length := by
  unfold Stack.pop
  split
  · exact le_refl _
  · simp only [List.length_dropLast]
    omega

theorem applyMOp_hist_bound (m : Manager) (op : MOp)
    (h1 : m.history.maxSize = 100) (h2 : m.history.items.length ≤ 100) :
    (applyMOp m op).history.maxSize = 100 ∧ (applyMOp m op).history.items.length ≤ 100 := by
  have hpush : ∀ e : HistEntry,
      (m.history.push e).maxSize = 100 ∧ (m.history.push e).items.length ≤ 100 := by
    intro e
    refine ⟨by rw [Stack.push_maxSize, h1], ?_⟩
    have := Stack.push_length_le m.history e (by omega) (by omega)
    omega
  cases op with
  | add d =>
    unfold applyMOp addStudent
    cases hf : m.students.findRoll d.roll_no with
    | none => simp only [hf]; exact hpush (.add d)
    | some r => simp only [hf]; exact ⟨h1, h2⟩
  | upd roll d =>
    unfold applyMOp updateStudent
    cases hf : m.students.findRoll roll with
    | none => simp only [hf]; exact ⟨h1, h2⟩
    | some old => simp only [hf]; exact hpush (.update roll old d)
  | del roll =>
    unfold applyMOp deleteStudent
    cases hf : m.students.findRoll roll with
    | none => simp only [hf]; exact ⟨h1, h2⟩
    | some d => simp only [hf]; exact hpush (.del d)
  | undo =>
    unfold applyMOp undoLast
    rcases hp : m.history.pop with ⟨o, h'⟩
    have hmax' : h'.maxSize = 100 := by
      have h3 : h'.maxSize = m.history.maxSize := by
        simpa [hp] using Stack.pop_snd_maxSize m.history
      rw [h3, h1]
    have hlen' : h'.items.length ≤ 100 := by
      have h3 : h'.items.length ≤ m.history.items.length := by
        simpa [hp] using Stack.pop_snd_length_le m.history
      omega
    cases o with
    | none => exact ⟨h1, h2⟩
    | some e => cases e <;> exact ⟨hmax', hlen'⟩

theorem manager_hist_inv (ops : List MOp) :
    (applyMOps ops).history.maxSize = 100 ∧ (applyMOps ops).history.items.length ≤ 100 := by
  have key : ∀ (ops : List MOp) (m : Manager),
      m.history.maxSize = 100 → m.history.items.length ≤ 100 →
      (ops.foldl applyMOp m).history.maxSize = 100
      ∧ (ops.foldl applyMOp m).history.items.length ≤ 100 := by
    intro ops
    induction ops with
    | nil => intro m h1 h2; exact ⟨h1, h2⟩
    | cons op rest ih =>
      intro m h1 h2
      obtain ⟨h1', h2'⟩ := applyMOp_hist_bound m op h1 h2
      exact ih _ h1' h2'
  exact key ops Manager.initial rfl (by simp [Manager.initial])

theorem Stack.pushAll_items (N : Nat) (hN : 1 ≤ N) :
    ∀ (es : List α) (s : Stack α), s.maxSize = N → s.items.length ≤ N →
      (s.pushAll es).items = (s.items ++ es).drop (s.items.length + es.length - N) := by
  intro es
  induction es with
  | nil =>
    intro s hm hl
    simp only [Stack.pushAll, List.foldl_nil, List.append_nil, List.length_nil,
      Nat.add_zero, Nat.sub_eq_zero_of_le hl, List.drop_zero]
  | cons x es ih =>
    intro s hm hl
    show (Stack.pushAll (s.push x) es).items = _
    by_cases hc : s.maxSize ≤ s.items.length
    · have hlen : s.items.length = N := by omega
      have hpush : (s.push x).items = s.items.drop 1 ++ [x] := by
        unfold Stack.push
        rw [if_pos hc]
      have hlen' : (s.push x).items.length = N := by
        rw [hpush]
        simp only [List.length_append, List.length_drop, List.length_cons, List.length_nil]
        omega
      have hres := ih (s.push x) (by rw [Stack.push_maxSize, hm]) (le_of_eq hlen')
      rw [hres, hlen', hpush]
      rw [show N + es.length - N = es.length by omega]
      rw [List.length_cons, hlen]
      rw [show N + (es.length + 1) - N = 1 + es.length by omega]
      rw [List.append_assoc, List.singleton_append]
      rw [← List.drop_drop]
      conv_rhs => rw [List.drop_append_of_le_length (by omega)]
    · have hpush : (s.push x).items = s.items ++ [x] := by
        unfold Stack.push
        rw [if_neg hc]
      have hlen' : (s.push x).items.length = s.items.length + 1 := by
        simp [hpush]
      have hres := ih (s.push x) (by rw [Stack.push_maxSize, hm]) (by omega)
      rw [hres, hlen', hpush, List.append_assoc, List.singleton_append]
      congr 1
      simp only [List.length_cons]
      omega

theorem Stack.pushAll_no_evict :
    ∀ (xs : List α) (s : Stack α), s.items.length + xs.length ≤ s.maxSize →
      (s.pushAll xs).items = s.items ++ xs ∧ (s.pushAll xs).maxSize = s.maxSize := by
  intro xs
  induction xs with
  | nil => intro s h; exact ⟨(List.append_nil s.items).symm, rfl⟩
  | cons x xs ih =>
    intro s h
    have hc : ¬ s.maxSize ≤ s.items.length := by
      simp only [List.length_cons] at h
      omega
    have hpush : (s.push x).items = s.items ++ [x] := by
      unfold Stack.push
      rw [if_neg hc]
    have hrec := ih (s.push x)
      (by rw [Stack.push_maxSize, hpush]
          simp only [List.length_append, List.length_cons, List.length_nil]
          simp only [List.length_cons] at h
          omega)
    show (Stack.pushAll (s.push x) xs).items = _ ∧ (Stack.pushAll (s.push x) xs).maxSize = _
    rw [hrec.1, hrec.2, hpush, Stack.push_maxSize, List.append_assoc, List.singleton_append]
    exact ⟨rfl, rfl⟩

theorem popLoop_spec :
    ∀ (n : Nat) (s t : Stack HistEntry) (acc : List HistEntry),
      t.items.length + min n s.items.length ≤ t.maxSize →
      popLoop s t acc n =
        (acc ++ s.items.reverse.take n,
         ⟨s.items.take (s.items.length - n), s.maxSize⟩,
         ⟨t.items ++ s.items.reverse.take n, t.maxSize⟩) := by
  intro n
  induction n with
  | zero =>
    intro s t acc _
    show (acc, s, t) = _
    simp only [List.take_zero, List.append_nil, Nat.sub_zero, List.take_length]
  | succ n ih =>
    intro s t acc h
    obtain ⟨sitems, smax⟩ := s
    obtain ⟨titems, tmax⟩ := t
    have h' : titems.length + min (n + 1) sitems.length ≤ tmax := by simpa using h
    rcases List.eq_nil_or_concat sitems with rfl | ⟨l, x, rfl⟩
    · unfold popLoop Stack.pop
      simp
    · simp only [List.concat_eq_append] at h' ⊢
      have hpop : Stack.pop ⟨l ++ [x], smax⟩ = (some x, ⟨l, smax⟩) := by
        unfold Stack.pop
        rw [List.getLast?_concat]
        rw [show (⟨l ++ [x], smax⟩ : Stack HistEntry).items.dropLast = l from
          List.dropLast_concat]
      have hlenS : (l ++ [x]).length = l.length + 1 := by simp
      have htpush : Stack.push ⟨titems, tmax⟩ x = ⟨titems ++ [x], tmax⟩ := by
        unfold Stack.push
        rw [if_neg (by simp only; omega)]
      have hrec := ih ⟨l, smax⟩ ⟨titems ++ [x], tmax⟩ (acc ++ [x])
        (by simp only [List.length_append, List.length_cons, List.length_nil]
            omega)
      unfold popLoop
      rw [hpop]
      show popLoop ⟨l, smax⟩ (Stack.push ⟨titems, tmax⟩ x) (acc ++ [x]) n = _
      rw [htpush, hrec]
      have hrev : (l ++ [x]).reverse.take (n + 1) = x :: l.reverse.take n := by
        rw [List.reverse_append]
        simp
      have htake : (l ++ [x]).take ((l ++ [x]).length - (n + 1)) = l.take (l.length - n) := by
        rw [hlenS, show l.length + 1 - (n + 1) = l.length - n by omega]
        rw [List.take_append_of_le_length (by omega)]
      rw [hrev, htake]
      simp [List.append_assoc]

theorem Stack.ext_eq (s s' : Stack α) (h1 : s.items = s'.items)
    (h2 : s.maxSize = s'.maxSize) : s = s' := by
  cases s
  cases s'
  cases h1
  cases h2
  rfl

theorem getOperationHistory_spec (m : Manager) (limit : Nat)
    (h100 : m.history.items.length ≤ 100)
    (hcap : m.history.items.length ≤ m.history.maxSize) :
    getOperationHistory m limit = (m.history.items.reverse.take limit, m) := by
  obtain ⟨studs, items, maxS⟩ := m
  simp only at h100 hcap
  have hrev : ((items.reverse.take limit : List HistEntry)).reverse
      = items.drop (items.length - limit) := by
    rw [List.take_reverse, List.reverse_reverse]
  have hstack : restoreLoop ⟨[] ++ items.reverse.take limit, 100⟩
      ⟨items.take (items.length - limit), maxS⟩ = ⟨items, maxS⟩ := by
    unfold restoreLoop
    have hno := Stack.pushAll_no_evict (α := HistEntry)
      ((⟨[] ++ items.reverse.take limit, (100 : Nat)⟩ : Stack HistEntry).items.reverse)
      ⟨items.take (items.length - limit), maxS⟩
      (by simp only [List.nil_append, hrev, List.length_take, List.length_drop]
          omega)
    refine Stack.ext_eq _ _ ?_ ?_
    · rw [hno.1]
      show items.take (items.length - limit)
          ++ ([] ++ items.reverse.take limit).reverse = items
      rw [List.nil_append, hrev, List.take_append_drop]
    · rw [hno.2]
  unfold getOperationHistory
  rw [popLoop_spec limit ⟨items, maxS⟩ ⟨[], 100⟩ []
      (by simp only [List.length_nil]
          omega)]
  simp only [List.nil_append] at hstack ⊢
  rw [hstack]

/-- C5: the operation history is a bounded FIFO-eviction stack.  (i) Along
any mutation sequence on the manager (whose history has capacity 100) the
history never holds more than 100 entries.  (ii) For any capacity `N ≥ 1`,
after pushing a sequence of entries onto an empty stack, exactly the
`min N (number pushed)` most recent entries remain, the oldest having been
evicted first.  (iii) The `get_operation_history` read returns the most
recent entries, most recent first, and restores the history unchanged. -/
theorem C5_bounded_history :
    (∀ ops : List MOp, (applyMOps ops).history.items.length ≤ 100)
    ∧ (∀ N : Nat, 1 ≤ N → ∀ es : List HistEntry,
        (Stack.pushAll ⟨[], N⟩ es).items = es.drop (es.length - N)
        ∧ (Stack.pushAll ⟨[], N⟩ es).items.length = min N es.length)
    ∧ (∀ (m : Manager) (limit : Nat),
        m.history.items.length ≤ 100 → m.history.items.length ≤ m.history.maxSize →
        getOperationHistory m limit = (m.history.items.reverse.take limit, m)) := by
  refine ⟨fun ops => (manager_hist_inv ops).2, ?_, getOperationHistory_spec⟩
  intro N hN es
  have h : (Stack.pushAll ⟨[], N⟩ es).items = es.drop (es.length - N) := by
    have h0 := Stack.pushAll_items N hN es ⟨[], N⟩ rfl (by simp)
    simpa using h0
  refine ⟨h, ?_⟩
  rw [h, List.length_drop]
  omega

/-- C5 witness: a capacity-2 stack receiving three entries keeps the last
two, and a non-destructive read of one entry returns the most recent entry
and restores the manager. -/
theorem C5_bounded_history_witness :
    (applyMOps [.add stA, .add stB]).history.items.length ≤ 100
    ∧ ((Stack.pushAll ⟨[], 2⟩
          [HistEntry.add stA, HistEntry.add stB, HistEntry.add stC]).items
        = [HistEntry.add stB, HistEntry.add stC]
       ∧ (Stack.pushAll ⟨[], 2⟩
            [HistEntry.add stA, HistEntry.add stB, HistEntry.add stC]).items.length = 2)
    ∧ getOperationHistory ⟨⟨[], 0⟩, ⟨[HistEntry.add stA, HistEntry.add stB], 100⟩⟩ 1 =
        ([HistEntry.add stB], ⟨⟨[], 0⟩, ⟨[HistEntry.add stA, HistEntry.add stB], 100⟩⟩) := by
  refine ⟨C5_bounded_history.1 [.add stA, .add stB], ?_, ?_⟩
  · have h := C5_bounded_history.2.1 2 (by omega)
      [HistEntry.add stA, HistEntry.add stB, HistEntry.add stC]
    exact ⟨h.1, h.2⟩
  · exact C5_bounded_history.2.2 ⟨⟨[], 0⟩, ⟨[HistEntry.add stA, HistEntry.add stB], 100⟩⟩ 1
      (by simp) (by simp)

theorem hLookup_append (hp : List (Nat × Student)) (n : Nat) (d : Student) (a : Nat)
    (ha : a ≠ n) : hLookup (hp ++ [(n, d)]) a = hLookup hp a := by
  induction hp with
  | nil =>
    unfold hLookup
    rw [List.nil_append, List.find?_cons_of_neg _ (by simpa using fun hna => ha hna.symm)]
  | cons p rest ih =>
    unfold hLookup at ih ⊢
    by_cases hpa : p.1 = a
    · rw [List.cons_append, List.find?_cons_of_pos _ (by simpa using hpa),
        List.find?_cons_of_pos _ (by simpa using hpa)]
    · rw [List.cons_append, List.find?_cons_of_neg _ (by simpa using hpa),
        List.find?_cons_of_neg _ (by simpa using hpa)]
      exact ih

theorem mem_replaceFirstAddr (a b : Nat) :
    ∀ (l : List Nat) (x : Nat), x ∈ replaceFirstAddr a b l → x ∈ l ∨ x = b := by
  intro l
  induction l with
  | nil => intro x hx; exact absurd hx (by simp [replaceFirstAddr])
  | cons y l ih =>
    intro x hx
    unfold replaceFirstAddr at hx
    by_cases hy : y = a
    · rw [if_pos hy] at hx
      rcases List.mem_cons.mp hx with rfl | hx
      · exact Or.inr rfl
      · exact Or.inl (List.mem_cons_of_mem y hx)
    · rw [if_neg hy] at hx
      rcases List.mem_cons.mp hx with rfl | hx
      · exact Or.inl (List.mem_cons_self x l)
      · rcases ih x hx with h | h
        · exact Or.inl (List.mem_cons_of_mem y h)
        · exact Or.inr h

theorem mem_removeFirstAddr (a : Nat) :
    ∀ (l : List Nat) (x : Nat), x ∈ removeFirstAddr a l → x ∈ l := by
  intro l
  induction l with
  | nil => intro x hx; exact absurd hx (by simp [removeFirstAddr])
  | cons y l ih =>
    intro x hx
    unfold removeFirstAddr at hx
    by_cases hy : y = a
    · rw [if_pos hy] at hx
      exact List.mem_cons_of_mem y hx
    · rw [if_neg hy] at hx
      rcases List.mem_cons.mp hx with rfl | hx
      · exact List.mem_cons_self x l
      · exact List.mem_cons_of_mem y (ih x hx)

/-- C9: snapshot isolation.  A snapshot is a fresh list of the store's data
references, and no mutation writes through an existing reference: `insert`
and `update` only allocate fresh records (update rebinds the node's data
reference), `delete` only unlinks a node.  Hence applying any mutation
leaves the records designated by a previously taken snapshot — their
number, identity, and field values — unchanged; well-formedness of the
reference structure is preserved, so this holds along whole mutation
sequences. -/
theorem C9_snapshot_isolation (s : HeapState) (op : HOp) (h : addrOk s) :
    derefAll (applyHOp s op).heap (hSnapshot s) = derefAll s.heap (hSnapshot s)
    ∧ addrOk (applyHOp s op) := by
  obtain ⟨horder, hheap⟩ := h
  have hfreshDeref : ∀ d : Student,
      derefAll (s.heap ++ [(s.nextAddr, d)]) (hSnapshot s) = derefAll s.heap (hSnapshot s) := by
    intro d
    unfold derefAll hSnapshot
    apply List.map_congr_left
    intro a ha
    exact hLookup_append s.heap s.nextAddr d a (by have := horder a ha; omega)
  have hheap' : ∀ d : Student, ∀ p ∈ s.heap ++ [(s.nextAddr, d)], p.1 < s.nextAddr + 1 := by
    intro d p hp
    rcases List.mem_append.mp hp with hp | hp
    · have := hheap p hp
      omega
    · simp only [List.mem_singleton] at hp
      subst hp
      omega
  cases op with
  | add d =>
    unfold applyHOp hAdd
    cases hf : hFindRoll s d.roll_no with
    | some a =>
      simp only [hf]
      exact ⟨trivial, horder, hheap⟩
    | none =>
      simp only [hf]
      refine ⟨hfreshDeref d, ?_, hheap' d⟩
      intro a ha
      show a < s.nextAddr + 1
      rcases List.mem_append.mp ha with ha | ha
      · have := horder a ha
        omega
      · simp only [List.mem_singleton] at ha
        omega
  | upd roll d =>
    unfold applyHOp hUpdate
    cases hf : hFindRoll s roll with
    | none =>
      simp only [hf]
      exact ⟨trivial, horder, hheap⟩
    | some a =>
      simp only [hf]
      refine ⟨hfreshDeref d, ?_, hheap' d⟩
      intro x hx
      show x < s.nextAddr + 1
      rcases mem_replaceFirstAddr a s.nextAddr s.order x hx with hmem | rfl
      · have := horder x hmem
        omega
      · omega
  | del roll =>
    unfold applyHOp hDelete
    cases hf : hFindRoll s roll with
    | none =>
      simp only [hf]
      exact ⟨trivial, horder, hheap⟩
    | some a =>
      simp only [hf]
      refine ⟨trivial, ?_, hheap⟩
      intro x hx
      show x < s.nextAddr
      exact horder x (mem_removeFirstAddr a s.order x hx)

/-- C9 witness: updating the only record of a one-record heap leaves the
record designated by the pre-update snapshot unchanged. -/
theorem C9_snapshot_isolation_witness :
    derefAll (applyHOp ⟨[(0, stA)], 1, [0]⟩ (.upd "1" stA2)).heap
        (hSnapshot ⟨[(0, stA)], 1, [0]⟩)
      = derefAll (⟨[(0, stA)], 1, [0]⟩ : HeapState).heap (hSnapshot ⟨[(0, stA)], 1, [0]⟩)
    ∧ addrOk (applyHOp ⟨[(0, stA)], 1, [0]⟩ (.upd "1" stA2)) :=
  C9_snapshot_isolation ⟨[(0, stA)], 1, [0]⟩ (.upd "1" stA2) (by constructor <;> decide)

theorem allEval_ok_true_iff (st : Student) :
    ∀ fr : List String, allEval st fr = .ok true ↔
      ∀ c ∈ fr, evalSingleCondition st (pyStrip c) = .ok true := by
  intro fr
  induction fr with
  | nil => simp [allEval]
  | cons c cs ih =>
    cases h : evalSingleCondition st (pyStrip c) with
    | error e => simp [allEval, h]
    | ok b =>
      cases b
      · simp [allEval, h]
      · simp [allEval, h, ih]

theorem anyEval_ok_true_iff (st : Student) :
    ∀ fr : List String,
      (∀ c ∈ fr, ∃ b, evalSingleCondition st (pyStrip c) = .ok b) →
      (anyEval st fr = .ok true ↔
       ∃ c ∈ fr, evalSingleCondition st (pyStrip c) = .ok true) := by
  intro fr
  induction fr with
  | nil => intro _; simp [anyEval]
  | cons c cs ih =>
    intro hne
    cases h : evalSingleCondition st (pyStrip c) with
    | error e =>
      obtain ⟨b, hb⟩ := hne c (List.mem_cons_self c cs)
      rw [h] at hb
      exact absurd hb (by simp)
    | ok b =>
      cases b
      · have hstep : anyEval st (c :: cs) = anyEval st cs := by simp [anyEval, h]
        rw [hstep, ih (fun c' hc' => hne c' (List.mem_cons_of_mem c hc'))]
        constructor
        · rintro ⟨c', hc', hx⟩
          exact ⟨c', List.mem_cons_of_mem c hc', hx⟩
        · rintro ⟨c', hc', hx⟩
          rcases List.mem_cons.mp hc' with rfl | hc'
          · rw [h] at hx
            exact absurd hx (by simp)
          · exact ⟨c', hc', hx⟩
      · have hstep : anyEval st (c :: cs) = .ok true := by simp [anyEval, h]
        rw [hstep]
        constructor
        · intro _
          exact ⟨c, List.mem_cons_self c cs, h⟩
        · intro _
          rfl

/-- C6 (amended).  A WHERE clause that mixes `AND` and `OR` is not rejected
with `UnsupportedQuery`: `_evaluate_condition` checks for `' AND '` first
and splits on it, treating every fragment (including fragments that still
contain `' OR '`) as a single field/operator/value condition.  A clause
containing `' AND '` evaluates true exactly when every (stripped) fragment
does; a clause containing only `' OR '` evaluates true exactly when some
fragment does (provided no fragment raises). -/
theorem C6_where_combinators (st : Student) (cond : String) :
    (occursIn " AND " cond = true →
      (evalCondition st cond = .ok true ↔
       ∀ c ∈ pySplitOn " AND " cond, evalSingleCondition st (pyStrip c) = .ok true))
    ∧ (occursIn " AND " cond = false → occursIn " OR " cond = true →
      (∀ c ∈ pySplitOn " OR " cond, ∃ b, evalSingleCondition st (pyStrip c) = .ok b) →
      (evalCondition st cond = .ok true ↔
       ∃ c ∈ pySplitOn " OR " cond, evalSingleCondition st (pyStrip c) = .ok true)) := by
  constructor
  · intro hand
    unfold evalCondition
    rw [if_pos hand]
    exact allEval_ok_true_iff st _
  · intro hand hor hne
    unfold evalCondition
    rw [if_neg (by simp [hand]), if_pos hor]
    exact anyEval_ok_true_iff st _ hne

/-- C6 witness: an AND-only clause with all fragments true evaluates true;
an OR-only clause with one true fragment evaluates true. -/
theorem C6_where_combinators_witness :
    evalCondition stA "NAME=ALICE AND NAME=ALICE" = .ok true
    ∧ evalCondition stA "NAME=BOB OR NAME=ALICE" = .ok true := by
  constructor
  · exact ((C6_where_combinators stA "NAME=ALICE AND NAME=ALICE").1 (by decide)).mpr
      (by decide)
  · refine ((C6_where_combinators stA "NAME=BOB OR NAME=ALICE").2 (by decide) (by decide)
      ?_).mpr ⟨"NAME=ALICE", by decide, by decide⟩
    intro c hc
    rw [show pySplitOn " OR " "NAME=BOB OR NAME=ALICE" = ["NAME=BOB", "NAME=ALICE"]
      from rfl] at hc
    rcases List.mem_cons.mp hc with rfl | hc
    · exact ⟨false, rfl⟩
    rcases List.mem_cons.mp hc with rfl | hc
    · exact ⟨true, rfl⟩
    · exact absurd hc (List.not_mem_nil c)

/-- C6 counterexample: a WHERE clause mixing AND and OR executes without
any error — the engine filters (to an empty result here) instead of
failing with `UnsupportedQuery`. -/
theorem C6_counterexample :
    executeQuery [stA] "SELECT * FROM STUDENTS WHERE NAME=ALICE AND NAME=B OR NAME=C" =
      .ok (.recs [])
    ∧ ¬ ∃ e, executeQuery [stA]
        "SELECT * FROM STUDENTS WHERE NAME=ALICE AND NAME=B OR NAME=C" = .error e := by
  have h1 : executeQuery [stA]
      "SELECT * FROM STUDENTS WHERE NAME=ALICE AND NAME=B OR NAME=C" = .ok (.recs []) := by
    rfl
  refine ⟨h1, ?_⟩
  rintro ⟨e, he⟩
  rw [h1] at he
  exact Except.noConfusion he

theorem limitAfter_digits (r ds : List Char) (h : limitAfter r = some ds) :
    ds ≠ [] ∧ ∀ c ∈ ds, c.isDigit = true := by
  unfold limitAfter at h
  split at h
  · rename_i r'
    split at h
    · exact Option.noConfusion h
    · rename_i he
      injection h with h
      subst h
      refine ⟨?_, fun c hc => List.mem_takeWhile_imp hc⟩
      intro hnil
      rw [hnil] at he
      exact he rfl
  · exact Option.noConfusion h

theorem searchLimit_digits :
    ∀ s ds : List Char, searchLimit s = some ds → ds ≠ [] ∧ ∀ c ∈ ds, c.isDigit = true := by
  intro s
  induction s with
  | nil => intro ds h; exact Option.noConfusion h
  | cons c s ih =>
    intro ds h
    unfold searchLimit at h
    by_cases hp : "LIMIT".data.isPrefixOf (c :: s)
    · rw [if_pos hp] at h
      cases hla : limitAfter ((c :: s).drop 5) with
      | some ds' =>
        rw [hla] at h
        injection h with h
        subst h
        exact limitAfter_digits _ _ hla
      | none =>
        rw [hla] at h
        exact ih ds h
    · rw [if_neg hp] at h
      exact ih ds h

/-- C8 (amended).  A non-numeric `LIMIT` never raises `QueryExecutionError`:
the parser's `LIMIT\s+(\d+)` regex only ever captures a non-empty digit run
(so the later `int()` cannot fail), and a `LIMIT` not followed by digits is
simply not matched — the query runs as if it had no LIMIT clause (see the
counterexample).  A parsed numeric `LIMIT n` truncates the (possibly
ordered) record list to its first `n` entries before the SELECT projection
is applied; with no parsed LIMIT no truncation happens. -/
theorem C8_limit_semantics :
    (∀ s ds : List Char, searchLimit s = some ds → ds ≠ [] ∧ ∀ c ∈ ds, c.isDigit = true)
    ∧ (∀ (snap : List Student) (p : Parsed) (d : String),
        p.groupBy = none → p.limit = some d →
        evalParsed snap p =
          match (match p.whereClause with
                 | some w => applyWhereClause w snap
                 | none => .ok snap) with
          | .error e => .error e
          | .ok fs =>
            match (match p.orderBy with
                   | some ob => applyOrderBy ob fs
                   | none => .ok fs) with
            | .error e => .error e
            | .ok os =>
              if p.select ≠ "*" then
                .ok (.projected (applySelect p.select (os.take (digitsToNat d.data))))
              else .ok (.recs (os.take (digitsToNat d.data))))
    ∧ (∀ (snap : List Student) (p : Parsed),
        p.groupBy = none → p.limit = none →
        evalParsed snap p =
          match (match p.whereClause with
                 | some w => applyWhereClause w snap
                 | none => .ok snap) with
          | .error e => .error e
          | .ok fs =>
            match (match p.orderBy with
                   | some ob => applyOrderBy ob fs
                   | none => .ok fs) with
            | .error e => .error e
            | .ok os =>
              if p.select ≠ "*" then .ok (.projected (applySelect p.select os))
              else .ok (.recs os)) := by
  refine ⟨searchLimit_digits, ?_, ?_⟩
  · intro snap p d hg hl
    unfold evalParsed
    rw [hg, hl]
  · intro snap p hg hl
    unfold evalParsed
    rw [hg, hl]

/-- C8 witness: a `LIMIT 2X` clause captures the digit run `2`; with
`LIMIT 1` on a two-record snapshot the projection receives one record. -/
theorem C8_limit_semantics_witness :
    ("2".data ≠ [] ∧ ∀ c ∈ "2".data, c.isDigit = true)
    ∧ evalParsed [stA, stC] ⟨"NAME", none, none, none, some "1"⟩ =
        .ok (.projected [[("name", .s "ALICE")]]) := by
  constructor
  · exact searchLimit_digits "SELECT NAME LIMIT 2X".data "2".data rfl
  · rw [C8_limit_semantics.2.1 [stA, stC] ⟨"NAME", none, none, none, some "1"⟩ "1" rfl rfl]
    rfl

/-- C8 counterexample: `LIMIT ABC` (a non-numeric LIMIT) neither raises
`QueryExecutionError` nor truncates — the clause is not matched by the
parser and the query returns every projected row. -/
theorem C8_counterexample :
    executeQuery [stA, stC] "SELECT NAME FROM STUDENTS LIMIT ABC" =
      .ok (.projected [[("name", .s "ALICE")], [("name", .s "BOB")]])
    ∧ ¬ ∃ e, executeQuery [stA, stC] "SELECT NAME FROM STUDENTS LIMIT ABC" = .error e := by
  have h1 : executeQuery [stA, stC] "SELECT NAME FROM STUDENTS LIMIT ABC" =
      .ok (.projected [[("name", .s "ALICE")], [("name", .s "BOB")]]) := by
    rfl
  refine ⟨h1, ?_⟩
  rintro ⟨e, he⟩
  rw [h1] at he
  exact Except.noConfusion he

theorem mem_insertBy (le : α → α → Bool) (a : α) :
    ∀ (l : List α) (x : α), x ∈ insertBy le a l ↔ x = a ∨ x ∈ l := by
  intro l
  induction l with
  | nil => intro x; simp [insertBy]
  | cons b l ih =>
    intro x
    unfold insertBy
    by_cases h : le a b
    · simp [h]
    · simp only [h, Bool.false_eq_true, if_false, List.mem_cons, ih x]
      tauto

theorem insertBy_perm (le : α → α → Bool) (a : α) :
    ∀ l : List α, List.Perm (insertBy le a l) (a :: l) := by
  intro l
  induction l with
  | nil => simp [insertBy]
  | cons b l ih =>
    unfold insertBy
    by_cases h : le a b
    · rw [if_pos h]
    · rw [if_neg h]
      exact (ih.cons b).trans (List.Perm.swap a b l)

theorem sortBy_perm (le : α → α → Bool) : ∀ l : List α, List.Perm (sortBy le l) l := by
  intro l
  induction l with
  | nil => simp [sortBy]
  | cons a l ih => exact (insertBy_perm le a (sortBy le l)).trans (ih.cons a)

theorem filter_insertBy_pos (le : α → α → Bool) (p : α → Bool) (a : α) (hpa : p a = true)
    (hcomp : ∀ b, p b = true → le a b = true) :
    ∀ l, (insertBy le a l).filter p = a :: l.filter p := by
  intro l
  induction l with
  | nil => simp [insertBy, hpa]
  | cons b l ih =>
    unfold insertBy
    by_cases h : le a b
    · rw [if_pos h, List.filter_cons_of_pos hpa]
    · have hpb : p b = false := by
        cases hb : p b
        · rfl
        · exact absurd (hcomp b hb) (by simp [h])
      rw [if_neg h, List.filter_cons_of_neg (by simp [hpb]),
        List.filter_cons_of_neg (by simp [hpb]), ih]

theorem filter_insertBy_neg (le : α → α → Bool) (p : α → Bool) (a : α) (hpa : p a = false) :
    ∀ l, (insertBy le a l).filter p = l.filter p := by
  intro l
  induction l with
  | nil => simp [insertBy, hpa]
  | cons b l ih =>
    unfold insertBy
    by_cases h : le a b
    · rw [if_pos h, List.filter_cons_of_neg (by simp [hpa])]
    · rw [if_neg h]
      cases hpb : p b
      · rw [List.filter_cons_of_neg (by simp [hpb]), List.filter_cons_of_neg (by simp [hpb]), ih]
      · rw [List.filter_cons_of_pos hpb, List.filter_cons_of_pos hpb, ih]

theorem sortBy_filter_stable (le : α → α → Bool) (p : α → Bool)
    (hcomp : ∀ a b, p a = true → p b = true → le a b = true) :
    ∀ l : List α, (sortBy le l).filter p = l.filter p := by
  intro l
  induction l with
  | nil => rfl
  | cons a l ih =>
    show (insertBy le a (sortBy le l)).filter p = _
    cases hpa : p a
    · rw [filter_insertBy_neg le p a hpa, ih, List.filter_cons_of_neg (by simp [hpa])]
    · rw [filter_insertBy_pos le p a hpa (fun b hb => hcomp a b hpa hb), ih,
        List.filter_cons_of_pos hpa]

theorem insertBy_pairwise (le : α → α → Bool)
    (htot : ∀ a b, le a b = true ∨ le b a = true)
    (htrans : ∀ a b c, le a b = true → le b c = true → le a c = true)
    (a : α) : ∀ l : List α, l.Pairwise (fun x y => le x y = true) →
      (insertBy le a l).Pairwise (fun x y => le x y = true) := by
  intro l
  induction l with
  | nil => intro _; simp [insertBy]
  | cons b l ih =>
    intro hl
    obtain ⟨hb, hl'⟩ := List.pairwise_cons.mp hl
    unfold insertBy
    by_cases h : le a b
    · rw [if_pos h]
      refine List.Pairwise.cons ?_ hl
      intro x hx
      rcases List.mem_cons.mp hx with rfl | hx
      · exact h
      · exact htrans a b x h (hb x hx)
    · rw [if_neg h]
      refine List.Pairwise.cons ?_ (ih hl')
      intro x hx
      rcases (mem_insertBy le a l x).mp hx with rfl | hx
      · rcases htot x b with h1 | h1
        · exact absurd h1 h
        · exact h1
      · exact hb x hx

theorem sortBy_pairwise (le : α → α → Bool)
    (htot : ∀ a b, le a b = true ∨ le b a = true)
    (htrans : ∀ a b c, le a b = true → le b c = true → le a c = true) :
    ∀ l : List α, (sortBy le l).Pairwise (fun x y => le x y = true) := by
  intro l
  induction l with
  | nil => simp [sortBy]
  | cons a l ih => exact insertBy_pairwise le htot htrans a _ ih

theorem clLt_irrefl : ∀ l : List Char, clLt l l = false := by
  intro l
  induction l with
  | nil => rfl
  | cons c l ih => simp [clLt, ih]

theorem clLt_trans :
    ∀ a b c : List Char, clLt a b = true → clLt b c = true → clLt a c = true := by
  intro a
  induction a with
  | nil =>
    intro b c hab hbc
    cases b with
    | nil => simp [clLt] at hab
    | cons y bs =>
      cases c with
      | nil => simp [clLt] at hbc
      | cons z cs => simp [clLt]
  | cons x as ih =>
    intro b c hab hbc
    cases b with
    | nil => simp [clLt] at hab
    | cons y bs =>
      cases c with
      | nil => simp [clLt] at hbc
      | cons z cs =>
        simp only [clLt] at hab hbc ⊢
        by_cases h1 : x.toNat < y.toNat
        · by_cases h2 : y.toNat < z.toNat
          · have hxz : x.toNat < z.toNat := by omega
            simp [hxz]
          · by_cases h4 : z.toNat < y.toNat
            · rw [if_neg h2, if_pos h4] at hbc
              exact absurd hbc (by simp)
            · have hxz : x.toNat < z.toNat := by omega
              simp [hxz]
        · by_cases h3 : y.toNat < x.toNat
          · rw [if_neg h1, if_pos h3] at hab
            exact absurd hab (by simp)
          · rw [if_neg h1, if_neg h3] at hab
            by_cases h2 : y.toNat < z.toNat
            · have hxz : x.toNat < z.toNat := by omega
              simp [hxz]
            · by_cases h4 : z.toNat < y.toNat
              · rw [if_neg h2, if_pos h4] at hbc
                exact absurd hbc (by simp)
              · rw [if_neg h2, if_neg h4] at hbc
                have hxz : ¬ x.toNat < z.toNat := by omega
                have hzx : ¬ z.toNat < x.toNat := by omega
                rw [if_neg hxz, if_neg hzx]
                exact ih bs cs hab hbc

theorem clLt_eq_of_not_lt :
    ∀ a b : List Char, clLt a b = false → clLt b a = false → a = b := by
  intro a
  induction a with
  | nil =>
    intro b hab _
    cases b with
    | nil => rfl
    | cons y bs => simp [clLt] at hab
  | cons x as ih =>
    intro b hab hba
    cases b with
    | nil => simp [clLt] at hba
    | cons y bs =>
      simp only [clLt] at hab hba
      by_cases h1 : x.toNat < y.toNat
      · rw [if_pos h1] at hab
        exact absurd hab (by simp)
      · by_cases h2 : y.toNat < x.toNat
        · rw [if_pos h2] at hba
          exact absurd hba (by simp)
        · rw [if_neg h1, if_neg h2] at hab
          rw [if_neg h2, if_neg h1] at hba
          have hn : x.toNat = y.toNat := by omega
          have hchar : x = y := Char.ext (UInt32.ext hn)
          rw [hchar, ih bs hab hba]

theorem keyLE_refl (k : SKey) : keyLE k k = true := by
  cases k with
  | num q => simp [keyLE]
  | str s => simp [keyLE, clLt_irrefl]

theorem keyLE_total (a b : SKey) : keyLE a b = true ∨ keyLE b a = true := by
  cases a with
  | num q =>
    cases b with
    | num q' =>
      simp only [keyLE, decide_eq_true_eq]
      exact le_total q q'
    | str s => exact Or.inl rfl
  | str s =>
    cases b with
    | num q' => exact Or.inr rfl
    | str s' =>
      cases h : clLt s'.data s.data
      · exact Or.inl (by simp [keyLE, h])
      · cases hc : clLt s.data s'.data
        · exact Or.inr (by simp [keyLE, hc])
        · exfalso
          have hcon := clLt_trans _ _ _ hc h
          rw [clLt_irrefl] at hcon
          exact Bool.noConfusion hcon

theorem keyLE_trans (a b c : SKey) (h1 : keyLE a b = true) (h2 : keyLE b c = true) :
    keyLE a c = true := by
  cases a with
  | num qa =>
    cases b with
    | num qb =>
      cases c with
      | num qc =>
        simp only [keyLE, decide_eq_true_eq] at h1 h2 ⊢
        exact le_trans h1 h2
      | str sc => rfl
    | str sb =>
      cases c with
      | num qc => exact absurd h2 (by simp [keyLE])
      | str sc => rfl
  | str sa =>
    cases b with
    | num qb => exact absurd h1 (by simp [keyLE])
    | str sb =>
      cases c with
      | num qc => exact absurd h2 (by simp [keyLE])
      | str sc =>
        simp only [keyLE, Bool.not_eq_true'] at h1 h2 ⊢
        cases hca : clLt sc.data sa.data
        · rfl
        · exfalso
          cases hbc : clLt sb.data sc.data
          · have hbceq : sb.data = sc.data := clLt_eq_of_not_lt _ _ hbc h2
            rw [hbceq, hca] at h1
            exact Bool.noConfusion h1
          · have hba := clLt_trans _ _ _ hbc hca
            rw [hba] at h1
            exact Bool.noConfusion h1

/-- C7 (amended).  `_apply_order_by` performs a stable sort in both
directions: for each key value, the records carrying that key appear in
the output in their snapshot order (the filter equality below), the output
is a permutation of the snapshot, and the output's keys are sorted
ascending (`ASC`) or descending (`DESC`).  `DESC` is Python's stable
`reverse=True` sort, which keeps equal-key records in snapshot order — it
is NOT the reverse of the stably-sorted ascending order (the
counterexample exhibits the difference on a key tie). -/
theorem C7_order_by_stable (students : List Student) (clause : String)
    (out : List Student) (h : applyOrderBy clause students = .ok out) :
    ∃ f : String,
      (∀ k : SKey,
        out.filter (fun st => decide (sortKeyOf st f = k)) =
          students.filter (fun st => decide (sortKeyOf st f = k)))
      ∧ List.Perm out students
      ∧ (out.Pairwise (fun a b => keyLE (sortKeyOf a f) (sortKeyOf b f) = true)
         ∨ out.Pairwise (fun a b => keyLE (sortKeyOf b f) (sortKeyOf a f) = true)) := by
  cases hparts : (pySplitOn " " clause).filter (fun p => p ≠ "") with
  | nil =>
    unfold applyOrderBy at h
    rw [hparts] at h
    exact absurd h (by simp)
  | cons f rest =>
    have heq : applyOrderBy clause students =
        (if ((students.map (fun st => sortKeyOf st f)).any isNumKey
            && (students.map (fun st => sortKeyOf st f)).any (fun k => !isNumKey k)) = true then
          (Except.error "Error in ORDER BY: unorderable types" : Except String (List Student))
        else if dirOf rest = "DESC" then
          Except.ok (sortBy (fun a b => keyLE (sortKeyOf b f) (sortKeyOf a f)) students)
        else Except.ok (sortBy (fun a b => keyLE (sortKeyOf a f) (sortKeyOf b f)) students)) := by
      unfold applyOrderBy
      rw [hparts]
    rw [heq] at h
    by_cases hmix : ((students.map (fun st => sortKeyOf st f)).any isNumKey
        && (students.map (fun st => sortKeyOf st f)).any (fun k => !isNumKey k)) = true
    · rw [if_pos hmix] at h
      exact absurd h (by simp)
    · rw [if_neg hmix] at h
      refine ⟨f, ?_⟩
      split at h
      · -- DESC: stable descending sort
        have hout : sortBy (fun a b => keyLE (sortKeyOf b f) (sortKeyOf a f)) students
            = out := by injection h
        subst hout
        refine ⟨?_, sortBy_perm _ students, Or.inr ?_⟩
        · intro k
          refine sortBy_filter_stable _ _ ?_ students
          intro a b ha hb
          rw [of_decide_eq_true ha, of_decide_eq_true hb]
          exact keyLE_refl k
        · exact sortBy_pairwise _
            (fun a b => keyLE_total (sortKeyOf b f) (sortKeyOf a f))
            (fun a b c h1 h2 => keyLE_trans _ _ _ h2 h1) students
      · -- ASC: stable ascending sort
        have hout : sortBy (fun a b => keyLE (sortKeyOf a f) (sortKeyOf b f)) students
            = out := by injection h
        subst hout
        refine ⟨?_, sortBy_perm _ students, Or.inl ?_⟩
        · intro k
          refine sortBy_filter_stable _ _ ?_ students
          intro a b ha hb
          rw [of_decide_eq_true ha, of_decide_eq_true hb]
          exact keyLE_refl k
        · exact sortBy_pairwise _
            (fun a b => keyLE_total (sortKeyOf a f) (sortKeyOf b f))
            (fun a b c h1 h2 => keyLE_trans _ _ _ h1 h2) students

/-- C7 witness: sorting two equal-name records ascending keeps their
snapshot order, and the conclusion's stability, permutation and sortedness
properties hold of that output. -/
theorem C7_order_by_stable_witness :
    ∃ f : String,
      (∀ k : SKey,
        ([stA, stB].filter (fun st => decide (sortKeyOf st f = k))) =
          ([stA, stB].filter (fun st => decide (sortKeyOf st f = k))))
      ∧ List.Perm [stA, stB] [stA, stB]
      ∧ (([stA, stB].Pairwise (fun a b => keyLE (sortKeyOf a f) (sortKeyOf b f) = true))
         ∨ ([stA, stB].Pairwise (fun a b => keyLE (sortKeyOf b f) (sortKeyOf a f) = true))) :=
  C7_order_by_stable [stA, stB] "NAME ASC" [stA, stB] (by decide)

/-- C7 counterexample: on a key tie (equal names), `DESC` returns the
records in snapshot order, which is not the reverse of the (identical)
ascending output — so DESC is not "the reverse of the stably-sorted
ascending order". -/
theorem C7_counterexample :
    applyOrderBy "NAME DESC" [stA, stB] = .ok [stA, stB]
    ∧ applyOrderBy "NAME ASC" [stA, stB] = .ok [stA, stB]
    ∧ [stA, stB] ≠ List.reverse [stA, stB] := by
  refine ⟨by decide, by decide, by decide⟩

/-- Spec-side description of first-seen order: the distinct values of a
list in order of first occurrence, given the values already seen. -/
def firstSeenFrom (seen : List String) : List String → List String
  | [] => []
  | k :: ks =>
    if k ∈ seen then firstSeenFrom seen ks else k :: firstSeenFrom (seen ++ [k]) ks

/-- The member list currently stored under a key (first matching pair),
i.e. the dict lookup on the insertion-ordered `groups`. -/
def lookupG (k : String) : List (String × List Student) → List Student
  | [] => []
  | (k', l) :: gs => if k' = k then l else lookupG k gs

theorem insertGroup_keys (k : String) (st : Student) :
    ∀ gs : List (String × List Student),
      (insertGroup k st gs).map Prod.fst =
        if k ∈ gs.map Prod.fst then gs.map Prod.fst else gs.map Prod.fst ++ [k] := by
  intro gs
  induction gs with
  | nil => simp [insertGroup]
  | cons q gs ih =>
    obtain ⟨k', l⟩ := q
    by_cases h : k' = k
    · subst h
      simp [insertGroup]
    · have hne : ¬ (k = k') := fun hh => h hh.symm
      simp only [insertGroup, if_neg h, List.map_cons, ih, List.mem_cons, hne,
        false_or]
      by_cases hm : k ∈ gs.map Prod.fst
      · simp [hm]
      · simp [hm]

theorem lookupG_insertGroup_same (k : String) (st : Student) :
    ∀ gs, lookupG k (insertGroup k st gs) = lookupG k gs ++ [st] := by
  intro gs
  induction gs with
  | nil => simp [insertGroup, lookupG]
  | cons q gs ih =>
    obtain ⟨k', l⟩ := q
    by_cases h : k' = k
    · subst h
      simp [insertGroup, lookupG]
    · simp [insertGroup, lookupG, h, ih]

theorem lookupG_insertGroup_other (k k' : String) (st : Student) (hkk : k ≠ k') :
    ∀ gs, lookupG k' (insertGroup k st gs) = lookupG k' gs := by
  intro gs
  induction gs with
  | nil => simp [insertGroup, lookupG, hkk]
  | cons q gs ih =>
    obtain ⟨k'', l⟩ := q
    by_cases h : k'' = k
    · subst h
      simp [insertGroup, lookupG, hkk]
    · simp [insertGroup, lookupG, h, ih]

theorem buildGroups_lookup (f : String) :
    ∀ (l : List Student) (acc : List (String × List Student)) (k : String),
      lookupG k (l.foldl (fun gs st => insertGroup (groupKeyOf st f) st gs) acc) =
        lookupG k acc ++ l.filter (fun st => decide (groupKeyOf st f = k)) := by
  intro l
  induction l with
  | nil => intro acc k; simp
  | cons st l ih =>
    intro acc k
    show lookupG k (List.foldl _ (insertGroup (groupKeyOf st f) st acc) l) = _
    rw [ih]
    by_cases h : groupKeyOf st f = k
    · subst h
      rw [lookupG_insertGroup_same]
      simp [List.filter_cons]
    · rw [lookupG_insertGroup_other _ _ _ h]
      simp [List.filter_cons, h]

theorem buildGroups_keys (f : String) :
    ∀ (l : List Student) (acc : List (String × List Student)),
      ((l.foldl (fun gs st => insertGroup (groupKeyOf st f) st gs) acc).map Prod.fst) =
        acc.map Prod.fst
          ++ firstSeenFrom (acc.map Prod.fst) (l.map (fun st => groupKeyOf st f)) := by
  intro l
  induction l with
  | nil => intro acc; simp [firstSeenFrom]
  | cons st l ih =>
    intro acc
    show ((List.foldl _ (insertGroup (groupKeyOf st f) st acc) l).map Prod.fst) = _
    rw [ih, insertGroup_keys]
    by_cases h : groupKeyOf st f ∈ acc.map Prod.fst
    · rw [if_pos h]
      simp [firstSeenFrom, h]
    · rw [if_neg h]
      simp only [List.map_cons, firstSeenFrom, h, if_false, Bool.false_eq_true]
      rw [List.append_assoc, List.singleton_append]

theorem insertGroup_keys_nodup (k : String) (st : Student)
    (gs : List (String × List Student)) (h : (gs.map Prod.fst).Nodup) :
    ((insertGroup k st gs).map Prod.fst).Nodup := by
  rw [insertGroup_keys]
  by_cases hm : k ∈ gs.map Prod.fst
  · simp [hm, h]
  · simp [hm, List.nodup_append, h]

theorem buildGroups_keys_nodup (f : String) :
    ∀ (l : List Student) (acc : List (String × List Student)),
      (acc.map Prod.fst).Nodup →
      ((l.foldl (fun gs st => insertGroup (groupKeyOf st f) st gs) acc).map Prod.fst).Nodup := by
  intro l
  induction l with
  | nil => intro acc h; exact h
  | cons st l ih =>
    intro acc h
    exact ih _ (insertGroup_keys_nodup _ st acc h)

theorem pair_eq_lookup :
    ∀ gs : List (String × List Student), (gs.map Prod.fst).Nodup →
      ∀ p ∈ gs, p.2 = lookupG p.1 gs := by
  intro gs
  induction gs with
  | nil => intro _ p hp; exact absurd hp (List.not_mem_nil p)
  | cons q gs ih =>
    intro hnd p hp
    obtain ⟨k', l⟩ := q
    rw [List.map_cons, List.nodup_cons] at hnd
    rcases List.mem_cons.mp hp with rfl | hp
    · simp [lookupG]
    · have hk : p.1 ∈ gs.map Prod.fst := List.mem_map_of_mem Prod.fst hp
      have hne : ¬ (k' = p.1) := fun hh => hnd.1 (hh ▸ hk)
      simp only [lookupG, if_neg hne]
      exact ih hnd.2 p hp

/-- C4: query evaluation follows the fixed order.  With GROUP BY present,
the result is the grouped summaries of the WHERE-filtered snapshot, and
changing the SELECT, ORDER BY and LIMIT clauses in any way leaves the
result unchanged (they are bypassed).  Without GROUP BY, the pipeline is
WHERE, then ORDER BY, then LIMIT, then the SELECT projection last.  Each
group summary row carries the group key, the member count, and the member
list: the keys are the distinct values in first-seen order, each row's
count is its member-list length, and each row's members are exactly the
filtered records carrying that key, in order. -/
theorem C4_evaluation_order (snap : List Student) (p : Parsed) :
    (∀ g : String, p.groupBy = some g →
      (evalParsed snap p =
        (match (match p.whereClause with
                | some w => applyWhereClause w snap
                | none => .ok snap) with
         | .error e => .error e
         | .ok fs => .ok (.grouped (applyGroupBy g fs)))
       ∧ ∀ (sel : String) (ob lim : Option String),
          evalParsed snap ⟨sel, p.whereClause, ob, p.groupBy, lim⟩ = evalParsed snap p))
    ∧ (p.groupBy = none →
      evalParsed snap p =
        (match (match p.whereClause with
                | some w => applyWhereClause w snap
                | none => .ok snap) with
         | .error e => .error e
         | .ok fs =>
           match (match p.orderBy with
                  | some ob => applyOrderBy ob fs
                  | none => .ok fs) with
           | .error e => .error e
           | .ok os =>
             if p.select ≠ "*" then
               .ok (.projected (applySelect p.select
                 (match p.limit with
                  | some d => os.take (digitsToNat d.data)
                  | none => os)))
             else
               .ok (.recs (match p.limit with
                    | some d => os.take (digitsToNat d.data)
                    | none => os))))
    ∧ (∀ (g : String) (fs : List Student),
        ((applyGroupBy g fs).map (fun r => r.group) =
          firstSeenFrom [] (fs.map (fun st => groupKeyOf st (pyStrip g))))
        ∧ ∀ r ∈ applyGroupBy g fs,
            r.count = r.members.length
            ∧ r.members = fs.filter (fun st => decide (groupKeyOf st (pyStrip g) = r.group))) := by
  refine ⟨?_, ?_, ?_⟩
  · intro g hg
    constructor
    · unfold evalParsed
      rw [hg]
    · intro sel ob lim
      unfold evalParsed
      simp only [hg]
  · intro hg
    unfold evalParsed
    rw [hg]
  · intro g fs
    constructor
    · show ((buildGroups (pyStrip g) fs).map (fun q => (⟨q.1, q.2.length, q.2⟩ : GroupRow))).map
          (fun r => r.group) = _
      rw [List.map_map]
      have hkeys := buildGroups_keys (pyStrip g) fs []
      simp only [List.map_nil, List.nil_append] at hkeys
      exact hkeys
    · intro r hr
      obtain ⟨q, hq, rfl⟩ := List.mem_map.mp hr
      refine ⟨rfl, ?_⟩
      show q.2 = _
      have hnd := buildGroups_keys_nodup (pyStrip g) fs [] (by simp)
      have hlk := pair_eq_lookup _ hnd q hq
      have hbl := buildGroups_lookup (pyStrip g) fs [] q.1
      simp only [lookupG, List.nil_append] at hbl
      rw [hlk]
      exact hbl

/-- C4 witness: a GROUP BY query groups the filtered snapshot (bypassing
ORDER BY, LIMIT and SELECT), while a plain projection query projects
last. -/
theorem C4_evaluation_order_witness :
    (evalParsed [stA, stB, stC] ⟨"*", none, none, some "NAME", none⟩ =
      .ok (.grouped (applyGroupBy "NAME" [stA, stB, stC])))
    ∧ (evalParsed [stA, stB, stC] ⟨"NAME", none, some "NAME ASC", some "NAME", some "1"⟩ =
        evalParsed [stA, stB, stC] ⟨"*", none, none, some "NAME", none⟩)
    ∧ ((applyGroupBy "NAME" [stA, stB, stC]).map (fun r => r.group) =
        firstSeenFrom [] ([stA, stB, stC].map (fun st => groupKeyOf st "NAME"))) := by
  refine ⟨?_, ?_, ?_⟩
  · exact ((C4_evaluation_order [stA, stB, stC] ⟨"*", none, none, some "NAME", none⟩).1
      "NAME" rfl).1
  · exact ((C4_evaluation_order [stA, stB, stC] ⟨"*", none, none, some "NAME", none⟩).1
      "NAME" rfl).2 "NAME" (some "NAME ASC") (some "1")
  · exact ((C4_evaluation_order [stA, stB, stC] ⟨"*", none, none, some "NAME", none⟩).2.2
      "NAME" [stA, stB, stC]).1

end StudentRecords
